import Mathlib

/-!
# dbstate: key codec, storage helpers, presence filter and permission resolver

A shallow embedding of `keys.go`, `util.go` and `accessors.go` of the
`dbstate` package, followed by theorems about the embedded functions.

Conventions of the embedding:

* a Go `[]byte` is a `List Nat` whose elements are below 256;
* a Go `string` is a Lean `String`; `strconv.ParseUint` walks its characters
  (a character outside ASCII is, byte by byte, outside every digit range, so
  it ends the parse with a syntax error exactly as its first byte does in Go);
* a Go `int` holding a permission bitmask is an `Int`; `&`, `|` and `^x` are
  `Int.land`, `Int.lor` and `Int.lnot`, which agree with the two's-complement
  operations at every width and never overflow;
* a `(value, error)` result is a pair whose second component is `none` for a
  nil error; a store lookup is an `Except`; a panic is `none`;
* a badger transaction is the list of writes it accepted (which writes badger
  refuses is a parameter), and `DB.Update` runs its closure on a fresh
  transaction and commits it; a `bytes.Buffer` is its unread bytes;
* `make` for a slice does not return when the capacity asked for is more than
  the runtime can allocate, the bound being a parameter;
* `SelfUser` works on an explicit memory of `User` structs, a pointer being the
  index of its struct.
-/

namespace Dbstate

/-! ## keys.go -/

/-- The error half of a `strconv.ParseUint` result. -/
inductive NumError where
  | ErrSyntax
  | ErrRange
  deriving DecidableEq, Repr

/-- Largest `uint64`. -/
def maxUint64 : Nat := 2 ^ 64 - 1

/-- In `strconv.ParseUint`, `lower(c)` is `c | ('x' - 'X')`. -/
def lower (c : Nat) : Nat := c ||| 32

/-- The digit value `strconv.ParseUint` assigns to one character, `none` for the
`default` branch of its switch (base 10, so an underscore is not skipped). -/
def digitOf (c : Char) : Option Nat :=
  if 48 ≤ c.toNat ∧ c.toNat ≤ 57 then some (c.toNat - 48)
  else if 97 ≤ lower c.toNat ∧ lower c.toNat ≤ 122 then some (lower c.toNat - 97 + 10)
  else none

/-- The digit loop of `strconv.ParseUint(s, 10, 64)` with accumulator `n`
(a `uint64`, so sums are taken modulo `2 ^ 64`). -/
def parseUintLoop : List Char → Nat → Nat × Option NumError
  | [], n => (n, none)
  | c :: cs, n =>
    match digitOf c with
    | none => (0, some NumError.ErrSyntax)
    | some d =>
      if d ≥ 10 then (0, some NumError.ErrSyntax)
      else if n ≥ maxUint64 / 10 + 1 then (maxUint64, some NumError.ErrRange)
      else
        let m := (n * 10) % 2 ^ 64
        let n1 := (m + d) % 2 ^ 64
        if n1 < m ∨ n1 > maxUint64 then (maxUint64, some NumError.ErrRange)
        else parseUintLoop cs n1

/-- The call `strconv.ParseUint(s, 10, 64)`: the value and the error. -/
def ParseUint (s : String) : Nat × Option NumError :=
  if s.toList = [] then (0, some NumError.ErrSyntax) else parseUintLoop s.toList 0

/-- The statement `parsed, _ := strconv.ParseUint(id, 10, 64)`: the error is dropped. -/
def parseID (id : String) : Nat := (ParseUint id).1

/-- The eight bytes `binary.LittleEndian.PutUint64` writes for `v`. -/
def putUint64 (v : Nat) : List Nat :=
  [v % 256, (v >>> 8) % 256, (v >>> 16) % 256, (v >>> 24) % 256,
   (v >>> 32) % 256, (v >>> 40) % 256, (v >>> 48) % 256, (v >>> 56) % 256]

def KeyTypeGuild : Nat := 103          -- 'g'
def KeyTypeMember : Nat := 109         -- 'm'
def KeyTypeChannel : Nat := 99         -- 'c'
def KeyTypeChannelMessage : Nat := 115 -- 's'
def KeyTypePresence : Nat := 112       -- 'p'
def KeyTypeVoiceState : Nat := 118     -- 'v'

def KeySelfUser : List Nat := [113]    -- 'q'

def KeyGuild (guildID : String) : List Nat :=
  KeyTypeGuild :: putUint64 (parseID guildID)

def KeyGuildMember (guildID userID : String) : List Nat :=
  KeyTypeMember :: (putUint64 (parseID guildID) ++ putUint64 (parseID userID))

def KeyGuildMembersIteratorPrefix (guildID : String) : List Nat :=
  KeyTypeMember :: putUint64 (parseID guildID)

def KeyChannel (channelID : String) : List Nat :=
  KeyTypeChannel :: putUint64 (parseID channelID)

def KeyChannelMessage (channelID messageID : String) : List Nat :=
  KeyTypeChannelMessage :: (putUint64 (parseID channelID) ++ putUint64 (parseID messageID))

def KeyChannelMessageIteratorPrefix (channelID : String) : List Nat :=
  KeyTypeChannelMessage :: putUint64 (parseID channelID)

def KeyPresence (userID : String) : List Nat :=
  KeyTypePresence :: putUint64 (parseID userID)

def KeyVoiceState (guildID userID : String) : List Nat :=
  KeyTypeVoiceState :: (putUint64 (parseID guildID) ++ putUint64 (parseID userID))

def KeyVoiceStateIteratorPrefix (guildID : String) : List Nat :=
  KeyTypeVoiceState :: putUint64 (parseID guildID)

/-- Byte-lexicographic "less than" on keys, the order of the key-value store
(`bytes.Compare(a, b) < 0`). -/
def bytesLess : List Nat → List Nat → Bool
  | [], [] => false
  | [], _ :: _ => true
  | _ :: _, [] => false
  | a :: as, b :: bs => if a < b then true else if b < a then false else bytesLess as bs

/-! ## util.go -/

/-- The errors the package tells apart by identity: `badger.ErrConflict`, the
package's `ErrNotFound`, and any other error value. -/
inductive Error where
  | ErrConflict
  | ErrNotFound
  | other (msg : String)
  deriving DecidableEq, Repr

/-- `MessageFlagDeleted MessageFlag = 1 << iota`, the first constant of its block. -/
def MessageFlagDeleted : Nat := 1

/-- `MessageFlagOld`, the second constant of the block (`1 << 1`). -/
def MessageFlagOld : Nat := 2

/-- The loop of `State.RetryUpdate`. `update i` is what the run number `i`
(counted from 0) of `s.DB.Update(fn)` returns, `none` standing for a nil error;
`runs` is the number of runs made so far. The Go loop has no bound, so the model
takes fuel: one unit per run, `none` when the fuel ends while the loop is still
retrying. A finished call gives the returned error and the total number of runs. -/
def RetryUpdate (update : Nat → Option Error) : Nat → Nat → Option (Option Error × Nat)
  | 0, _ => none
  | fuel + 1, runs =>
    match update runs with
    | none => some (none, runs + 1)
    | some err =>
      if err = Error.ErrConflict then RetryUpdate update fuel (runs + 1)
      else some (some err, runs + 1)

/-- The fields of `presenceUpdateFilter` other than its mutex. `numShards` is the
length handed to `make`, a natural number (a negative length makes `make` panic). -/
structure presenceUpdateFilter where
  recentlyProcessedPresenceUpdates : List (List String)
  numShards : Nat
  deriving DecidableEq, Repr

/-- The method `presenceUpdateFilter.clear`: `make([][]string, f.numShards)`. -/
def presenceUpdateFilter.clear (f : presenceUpdateFilter) : presenceUpdateFilter :=
  { f with recentlyProcessedPresenceUpdates := List.replicate f.numShards [] }

/-- The method `presenceUpdateFilter.checkUserID`: the result and the filter after
the call. The indexed append panics when `shardID` is not an index of the outer
list; that is `none`. -/
def presenceUpdateFilter.checkUserID (f : presenceUpdateFilter) (shardID : Nat)
    (userID : String) : Option (Bool × presenceUpdateFilter) :=
  if f.recentlyProcessedPresenceUpdates.any
      (fun shardList => shardList.any (fun v => decide (v = userID))) then
    some (true, f)
  else
    match f.recentlyProcessedPresenceUpdates.get? shardID with
    | none => none
    | some shardList =>
      some (false, { f with recentlyProcessedPresenceUpdates :=
        f.recentlyProcessedPresenceUpdates.set shardID (shardList ++ [userID]) })

/-! ## accessors.go -/

/-- The one field of `discordgo.Message` the package's keys depend on, and its text. -/
structure Message where
  ID : String
  Content : String
  deriving DecidableEq, Repr

/-- `MessageWithMeta`: a message and whether it is flagged deleted. -/
structure MessageWithMeta where
  Message : Message
  Deleted : Bool
  deriving DecidableEq, Repr

/-- The closure `LastChannelMessagesWithTxn` hands to the iterator, as a step on
the captured slice `messages`: the slice after the call and the returned bool. -/
def lastChannelMessagesCallback (n : Int) (includeDeleted : Bool)
    (messages : List MessageWithMeta) (flags : Nat) (m : Message) :
    List MessageWithMeta × Bool :=
  let deleted := decide (flags &&& MessageFlagDeleted ≠ 0)
  if !includeDeleted && deleted then (messages, true)
  else
    let messages := messages ++ [{ Message := m, Deleted := deleted }]
    if n > 0 ∧ (messages.length : Int) ≥ n then (messages, false)
    else (messages, true)

/-- Modelled from the spec: the calling protocol of
`IterateChannelMessagesNewerFirst`, which is not among the sources. It hands the
entries of the channel's range to the callback one by one, in order, and stops at
the first call that returns false ("stops once n results are collected", "early
termination without materializing the full channel history"). `entries` is the
range in delivery order, `st` the state the callback closes over. -/
def iterateEntries {σ : Type} (f : σ → Nat → Message → σ × Bool) :
    List (Nat × Message) → σ → σ
  | [], st => st
  | (flags, m) :: rest, st =>
    match f st flags m with
    | (st1, true) => iterateEntries f rest st1
    | (st1, false) => st1

/-- The capacity `LastChannelMessagesWithTxn` asks of `make` for the result slice
(lines 89 to 93): 100 when `n < 0`, `n` otherwise. -/
def resultCapacity (n : Int) : Int := if n < 0 then 100 else n

/-- Whether `make([]*MessageWithMeta, 0, capacity)` returns. The elements are
pointers, 8 bytes each on a 64-bit platform (where `int` has 64 bits); the byte
count has to fit a `uintptr` and must not exceed `maxAlloc`, the most bytes the
runtime can allocate for the slice (its constant of that name, or less where
memory is short). Otherwise `make` does not return: it panics, or the runtime
stops for lack of memory. `maxAlloc` is a parameter of the model. -/
def makeSucceeds (maxAlloc : Nat) (capacity : Int) : Prop :=
  0 ≤ capacity ∧ 8 * capacity < 18446744073709551616 ∧ 8 * capacity ≤ (maxAlloc : Int)

instance (maxAlloc : Nat) (capacity : Int) : Decidable (makeSucceeds maxAlloc capacity) :=
  inferInstanceAs (Decidable (_ ∧ _))

/-- The messages `State.LastChannelMessagesWithTxn` returns when the iterator
delivers `entries`: `none` when `make` does not return, which is before the
iterator is called; otherwise the slice starts empty and the callback fills it. The error
of the iterator is handed back next to the messages and is not part of the model. -/
def LastChannelMessagesWithTxn (maxAlloc : Nat) (entries : List (Nat × Message)) (n : Int)
    (includeDeleted : Bool) : Option (List MessageWithMeta) :=
  if makeSucceeds maxAlloc (resultCapacity n) then
    some (iterateEntries (lastChannelMessagesCallback n includeDeleted) entries [])
  else none

/-- Modelled from the spec: the range `IterateChannelMessagesNewerFirst` walks, "a
reverse prefix scan over the channel's message-key range": the stored entries
whose key starts with `KeyChannelMessageIteratorPrefix(channelID)`, in descending
byte-lexicographic key order. An entry is its key, its flag byte and its message. -/
def reverseScan (store : List (List Nat × Nat × Message)) (channelID : String) :
    List (Nat × Message) :=
  ((store.filter (fun e => (KeyChannelMessageIteratorPrefix channelID).isPrefixOf e.1)).insertionSort
    (fun a b => bytesLess b.1 a.1 = true)).map (fun e => e.2)

/-- A store that holds exactly the given messages of one channel, each under
`KeyChannelMessage(channelID, m.ID)`. -/
def storeMessages (channelID : String) (msgs : List (Nat × Message)) :
    List (List Nat × Nat × Message) :=
  msgs.map (fun e => (KeyChannelMessage channelID e.2.ID, e.1, e.2))

/-- `State.LastChannelMessages` over such a store, with the iterator as modelled. -/
def LastChannelMessages (maxAlloc : Nat) (store : List (List Nat × Nat × Message))
    (channelID : String) (n : Int) (includeDeleted : Bool) : Option (List MessageWithMeta) :=
  LastChannelMessagesWithTxn maxAlloc (reverseScan store channelID) n includeDeleted

/-- `discordgo.Role`: the fields `MemberPermissions` reads. -/
structure Role where
  ID : String
  Permissions : Int
  deriving DecidableEq, Repr

/-- `discordgo.PermissionOverwrite` (the field `Type` is written `Type_`). -/
structure PermissionOverwrite where
  ID : String
  Type_ : String
  Deny : Int
  Allow : Int
  deriving DecidableEq, Repr

/-- `discordgo.Channel`: the fields `MemberPermissions` reads. -/
structure Channel where
  ID : String
  GuildID : String
  PermissionOverwrites : List PermissionOverwrite
  deriving DecidableEq, Repr

/-- `discordgo.Guild`: the fields `MemberPermissions` reads. -/
structure Guild where
  ID : String
  OwnerID : String
  Roles : List Role
  Channels : List Channel
  deriving DecidableEq, Repr

/-- `discordgo.Member`: the field `MemberPermissions` reads. -/
structure Member where
  Roles : List String
  deriving DecidableEq, Repr

/-- The three permission constants of the `discordgo` library that
`MemberPermissions` uses. The library is not part of the repository, so the
constants are a parameter of the model. -/
structure Permissions where
  PermissionAdministrator : Int
  PermissionAllChannel : Int
  PermissionAll : Int
  deriving DecidableEq, Repr

/-- The values the `discordgo` library of the repository's time gives the three
constants: administrator is `1 << 3`; all-channel is the text bits 10 to 17, the
voice bits 20 to 25 and the bits 0, 4, 6, 7 and 28; all adds the bits 1, 2, 3
and 5. The general theorems hold for every value of the constants; the concrete
values serve the examples, which use only that administrator is bit 3 and that
bit 11 (send messages) is a channel permission. -/
def discordgo : Permissions :=
  { PermissionAdministrator := 8
    PermissionAllChannel := 334757073
    PermissionAll := 334757119 }

/-- The three lookups of `State` that `MemberPermissions` calls with a nil
transaction, as functions of their arguments: `s.Channel(channelID)`,
`s.Guild(id)` and `s.GuildMember(guildID, userID)`. A lookup that succeeds
yields a record. -/
structure State where
  Channel : String → Except Error Channel
  Guild : String → Except Error Guild
  GuildMember : String → String → Except Error Member

/-- The loop over `g.Channels` (it has no `break`, the last match stays). -/
def findChannel (channelID : String) : List Channel → Option Channel → Option Channel
  | [], channel => channel
  | c :: rest, channel => findChannel channelID rest (if c.ID = channelID then some c else channel)

/-- Lines 143 to 164 of `MemberPermissions`: the guild and the channel the rest
of the function works on, or the error it returns. -/
def resolveGuildChannel (s : State) (g : Option Guild) (channelID : String) :
    Except Error (Guild × Channel) :=
  match g with
  | none =>
    match s.Channel channelID with
    | .error err => .error err
    | .ok channel =>
      match s.Guild channel.GuildID with
      | .error err => .error err
      | .ok g => .ok (g, channel)
  | some g =>
    match findChannel channelID g.Channels none with
    | none => .error Error.ErrNotFound
    | some channel => .ok (g, channel)

/-- The test `apermissions&discordgo.PermissionAdministrator == discordgo.PermissionAdministrator`. -/
def hasAdministrator (k : Permissions) (apermissions : Int) : Prop :=
  Int.land apermissions k.PermissionAdministrator = k.PermissionAdministrator

instance (k : Permissions) (apermissions : Int) : Decidable (hasAdministrator k apermissions) :=
  inferInstanceAs (Decidable (_ = _))

/-- The statements `apermissions &= ^deny; apermissions |= allow`. -/
def applyOverwrite (apermissions deny allow : Int) : Int :=
  Int.lor (Int.land apermissions (Int.lnot deny)) allow

/-- First loop over `g.Roles`: the role whose id is the guild id, then `break`. -/
def everyoneRoleLoop (guildID : String) : List Role → Int → Int
  | [], apermissions => apermissions
  | role :: rest, apermissions =>
    if role.ID = guildID then Int.lor apermissions role.Permissions
    else everyoneRoleLoop guildID rest apermissions

/-- Second loop over `g.Roles`: each role whose id is among `member.Roles` (the
inner loop breaks at the first equal id, so a role counts once). -/
def memberRolesLoop (memberRoles : List String) : List Role → Int → Int
  | [], apermissions => apermissions
  | role :: rest, apermissions =>
    memberRolesLoop memberRoles rest
      (if memberRoles.any (fun roleID => decide (role.ID = roleID)) then
        Int.lor apermissions role.Permissions
      else apermissions)

/-- Loop applying the everyone overwrite: first overwrite whose id is the guild id. -/
def everyoneOverwriteLoop (guildID : String) : List PermissionOverwrite → Int → Int
  | [], apermissions => apermissions
  | overwrite :: rest, apermissions =>
    if guildID = overwrite.ID then applyOverwrite apermissions overwrite.Deny overwrite.Allow
    else everyoneOverwriteLoop guildID rest apermissions

/-- Loop collecting `denies` and `allows` over the role overwrites of the member's roles. -/
def roleOverwritesLoop (memberRoles : List String) :
    List PermissionOverwrite → Int × Int → Int × Int
  | [], acc => acc
  | overwrite :: rest, (denies, allows) =>
    roleOverwritesLoop memberRoles rest
      (if memberRoles.any (fun roleID => decide (overwrite.Type_ = "role" ∧ roleID = overwrite.ID)) then
        (Int.lor denies overwrite.Deny, Int.lor allows overwrite.Allow)
      else (denies, allows))

/-- Loop applying the member overwrite: first overwrite of type "member" for `memberID`. -/
def memberOverwriteLoop (memberID : String) : List PermissionOverwrite → Int → Int
  | [], apermissions => apermissions
  | overwrite :: rest, apermissions =>
    if overwrite.Type_ = "member" ∧ overwrite.ID = memberID then
      applyOverwrite apermissions overwrite.Deny overwrite.Allow
    else memberOverwriteLoop memberID rest apermissions

/-- Lines 175 to 235 of `MemberPermissions`: the bitmask computed once the guild,
the channel and the member are at hand. -/
def computePermissions (k : Permissions) (g : Guild) (channel : Channel) (member : Member)
    (memberID : String) : Int :=
  let apermissions := everyoneRoleLoop g.ID g.Roles 0
  let apermissions := memberRolesLoop member.Roles g.Roles apermissions
  if hasAdministrator k apermissions then Int.lor apermissions k.PermissionAll
  else
    let apermissions := everyoneOverwriteLoop g.ID channel.PermissionOverwrites apermissions
    let da := roleOverwritesLoop member.Roles channel.PermissionOverwrites (0, 0)
    let apermissions := applyOverwrite apermissions da.1 da.2
    let apermissions := memberOverwriteLoop memberID channel.PermissionOverwrites apermissions
    if hasAdministrator k apermissions then Int.lor apermissions k.PermissionAllChannel
    else apermissions

/-- The method `State.MemberPermissions`: the pair `(apermissions, err)` it returns. -/
def MemberPermissions (k : Permissions) (s : State) (g : Option Guild)
    (channelID memberID : String) : Int × Option Error :=
  match resolveGuildChannel s g channelID with
  | .error err => (0, some err)
  | .ok (g, channel) =>
    if memberID = g.OwnerID then (k.PermissionAll, none)
    else
      match s.GuildMember g.ID memberID with
      | .error err => (0, some err)
      | .ok member => (computePermissions k g channel member memberID, none)

/-! ## Definitions used to state the theorems -/

/-- Whether the flag byte has the `MessageFlagDeleted` bit. -/
def flagDeleted (flags : Nat) : Bool := decide (flags &&& MessageFlagDeleted ≠ 0)

/-- The entries of a delivered range that pass the filter of
`LastChannelMessages`, each with its `Deleted` field, in delivery order. -/
def passingEntries (includeDeleted : Bool) (entries : List (Nat × Message)) :
    List MessageWithMeta :=
  (entries.filter (fun e => includeDeleted || !flagDeleted e.1)).map
    (fun e => { Message := e.2, Deleted := flagDeleted e.1 })

/-- A message with the given id and no text. -/
def messageWithID (id : String) : Message := { ID := id, Content := "" }

/-- Ids 5, 4, 3, 2, 1 in delivery order, 4 flagged deleted. -/
def fiveMessages : List (Nat × Message) :=
  [(0, messageWithID "5"), (MessageFlagDeleted, messageWithID "4"), (0, messageWithID "3"),
   (0, messageWithID "2"), (0, messageWithID "1")]

/-- Outcomes of the update transaction: conflict on the first two runs, then success. -/
def twoConflictsThenSuccess (i : Nat) : Option Error :=
  if i < 2 then some Error.ErrConflict else none

/-- A presence filter holding `numShards` empty shard lists. -/
def emptyFilter (numShards : Nat) : presenceUpdateFilter :=
  { recentlyProcessedPresenceUpdates := List.replicate numShards [], numShards := numShards }

/-- A sequential run of `checkUserID` calls, each a shard id and a user id, with
no `clear` in between: the results in call order and the filter at the end, or
`none` if a call panics. -/
def runChecks (f : presenceUpdateFilter) :
    List (Nat × String) → Option (List Bool × presenceUpdateFilter)
  | [] => some ([], f)
  | c :: rest =>
    match f.checkUserID c.1 c.2 with
    | none => none
    | some (b, f1) =>
      match runChecks f1 rest with
      | none => none
      | some (bs, f2) => some (b :: bs, f2)

/-- The user id is held in one of the filter's shard lists. -/
def recorded (f : presenceUpdateFilter) (userID : String) : Prop :=
  ∃ shardList ∈ f.recentlyProcessedPresenceUpdates, userID ∈ shardList

/-- The permissions of the guild's everyone role: the first role of `g.Roles`
whose id is the guild id, 0 when there is none. -/
def everyoneRolePermissions (g : Guild) : Int :=
  match g.Roles.find? (fun role => decide (role.ID = g.ID)) with
  | some role => role.Permissions
  | none => 0

/-- The base permissions: the everyone role's permissions, OR the permissions of
every guild role whose id is among `member.Roles`. -/
def basePermissions (g : Guild) (member : Member) : Int :=
  ((g.Roles.filter (fun role => decide (role.ID ∈ member.Roles))).map
    (fun role => role.Permissions)).foldl Int.lor (everyoneRolePermissions g)

/-- Deny and allow of the first channel overwrite whose id is the guild id, `(0, 0)`
when there is none. -/
def everyoneOverwrite (g : Guild) (channel : Channel) : Int × Int :=
  match channel.PermissionOverwrites.find? (fun o => decide (o.ID = g.ID)) with
  | some o => (o.Deny, o.Allow)
  | none => (0, 0)

/-- The overwrites of type "role" whose id is among `member.Roles`. -/
def memberRoleOverwrites (member : Member) (channel : Channel) : List PermissionOverwrite :=
  channel.PermissionOverwrites.filter
    (fun o => decide (o.Type_ = "role" ∧ o.ID ∈ member.Roles))

/-- The OR of the denies of the member's role overwrites. -/
def roleDenies (member : Member) (channel : Channel) : Int :=
  ((memberRoleOverwrites member channel).map (fun o => o.Deny)).foldl Int.lor 0

/-- The OR of the allows of the member's role overwrites. -/
def roleAllows (member : Member) (channel : Channel) : Int :=
  ((memberRoleOverwrites member channel).map (fun o => o.Allow)).foldl Int.lor 0

/-- Deny and allow of the first overwrite of type "member" whose id is `memberID`,
`(0, 0)` when there is none. -/
def memberOverwrite (channel : Channel) (memberID : String) : Int × Int :=
  match channel.PermissionOverwrites.find?
      (fun o => decide (o.Type_ = "member" ∧ o.ID = memberID)) with
  | some o => (o.Deny, o.Allow)
  | none => (0, 0)

/-- The bitmask `((((((P & ~De) | Ae) & ~Dr) | Ar) & ~Dm) | Am)` for base permissions `P`. -/
def overwriteResult (g : Guild) (channel : Channel) (member : Member) (memberID : String) :
    Int :=
  Int.lor (Int.land (Int.lor (Int.land (Int.lor (Int.land (basePermissions g member)
    (Int.lnot (everyoneOverwrite g channel).1)) (everyoneOverwrite g channel).2)
    (Int.lnot (roleDenies member channel))) (roleAllows member channel))
    (Int.lnot (memberOverwrite channel memberID).1)) (memberOverwrite channel memberID).2

/-- The channel with its overwrite list replaced by `f channel`. -/
def Channel.withOverwrites (f : Channel → List PermissionOverwrite) (c : Channel) : Channel :=
  { c with PermissionOverwrites := f c }

/-- The guild with the overwrite list of each of its channels replaced. -/
def Guild.withOverwrites (f : Channel → List PermissionOverwrite) (g : Guild) : Guild :=
  { g with Channels := g.Channels.map (Channel.withOverwrites f) }

/-- The store with the overwrite list of every channel it returns replaced. -/
def State.withOverwrites (f : Dbstate.Channel → List PermissionOverwrite) (s : State) :
    State :=
  { s with
    Channel := fun id =>
      match s.Channel id with
      | .ok c => .ok (c.withOverwrites f)
      | .error err => .error err
    Guild := fun id =>
      match s.Guild id with
      | .ok g => .ok (g.withOverwrites f)
      | .error err => .error err }

/-- A role overwrite for role "20" that allows bit 3 (administrator) and bit 11. -/
def adminRoleOverwrite : PermissionOverwrite :=
  { ID := "20", Type_ := "role", Deny := 0, Allow := 2056 }

/-- A role overwrite for role "20" that allows bit 1 and bit 11. -/
def plainRoleOverwrite : PermissionOverwrite :=
  { ID := "20", Type_ := "role", Deny := 0, Allow := 2050 }

/-- A member overwrite for member "7" that denies bit 1 and bit 11 and allows nothing. -/
def denyMemberOverwrite : PermissionOverwrite :=
  { ID := "7", Type_ := "member", Deny := 2050, Allow := 0 }

/-- Channel "5": the administrator-granting role overwrite, then the member overwrite. -/
def channelFive : Channel :=
  { ID := "5", GuildID := "1", PermissionOverwrites := [adminRoleOverwrite, denyMemberOverwrite] }

/-- Channel "6": the plain role overwrite, then the member overwrite. -/
def channelSix : Channel :=
  { ID := "6", GuildID := "1", PermissionOverwrites := [plainRoleOverwrite, denyMemberOverwrite] }

/-- Guild "1", owned by "9", with an everyone role without permissions, role "20"
without permissions, role "30" with the administrator bit, and the two channels. -/
def guildOne : Guild :=
  { ID := "1", OwnerID := "9",
    Roles := [{ ID := "1", Permissions := 0 }, { ID := "20", Permissions := 0 },
              { ID := "30", Permissions := 8 }],
    Channels := [channelFive, channelSix] }

/-- Member "7" holds role "20"; member "8" holds role "30". -/
def memberOf (userID : String) : Member :=
  if userID = "8" then { Roles := ["30"] } else { Roles := ["20"] }

/-- A store that holds guild "1", its channels and a member record for every user id. -/
def storeOne : State :=
  { Channel := fun id =>
      if id = "5" then .ok channelFive
      else if id = "6" then .ok channelSix
      else .error Error.ErrNotFound
    Guild := fun id => if id = "1" then .ok guildOne else .error Error.ErrNotFound
    GuildMember := fun _ userID => .ok (memberOf userID) }

/-- The store `storeOne` with no member records at all. -/
def storeWithoutMembers : State :=
  { storeOne with GuildMember := fun _ _ => .error Error.ErrNotFound }

/-- The character is one of the ASCII digits 0 to 9. -/
def isDigit (c : Char) : Prop := 48 ≤ c.toNat ∧ c.toNat ≤ 57

instance (c : Char) : Decidable (isDigit c) := inferInstanceAs (Decidable (_ ∧ _))

/-- The value of a digit character. -/
def digitValue (c : Char) : Nat := c.toNat - 48

/-- The number read in base 10 from the digits `cs` after the digits already read
gave `n` (no bound on its size). -/
def decimalFrom (n : Nat) : List Char → Nat
  | [] => n
  | c :: cs => decimalFrom (n * 10 + digitValue c) cs

/-- The number a string of decimal digits denotes. -/
def decimalValue (s : String) : Nat := decimalFrom 0 s.toList

/-- The string consists of decimal digits only. -/
def allDigits (s : String) : Prop := ∀ c ∈ s.toList, isDigit c

/-- The string is a decimal string of an unsigned 64-bit integer: at least one
character, digits only (leading zeros allowed), value at most `2 ^ 64 - 1`. -/
def IsUint64Decimal (s : String) : Prop :=
  s.toList ≠ [] ∧ allDigits s ∧ decimalValue s ≤ maxUint64

/-- The two id strings give the same bytes in every id position of every key
function: the six entity keys and the three iterator prefixes. -/
def sameKeyComponent (a b : String) : Prop :=
  KeyGuild a = KeyGuild b ∧ KeyChannel a = KeyChannel b ∧ KeyPresence a = KeyPresence b ∧
  KeyGuildMembersIteratorPrefix a = KeyGuildMembersIteratorPrefix b ∧
  KeyChannelMessageIteratorPrefix a = KeyChannelMessageIteratorPrefix b ∧
  KeyVoiceStateIteratorPrefix a = KeyVoiceStateIteratorPrefix b ∧
  ∀ other : String,
    KeyGuildMember a other = KeyGuildMember b other ∧
    KeyGuildMember other a = KeyGuildMember other b ∧
    KeyChannelMessage a other = KeyChannelMessage b other ∧
    KeyChannelMessage other a = KeyChannelMessage other b ∧
    KeyVoiceState a other = KeyVoiceState b other ∧
    KeyVoiceState other a = KeyVoiceState other b

/-- The digits of a string before its first character that is not a digit. -/
def leadingDigits (cs : List Char) : List Char :=
  cs.takeWhile (fun c => decide (isDigit c))

/-- The string is not a base-10 unsigned integer literal: it is empty or has a
character other than the digits 0 to 9. -/
def nonNumeric (s : String) : Prop := s.toList = [] ∨ ¬ allDigits s

/-- The seven kinds of key: the six `KeyType` constants and the self user. -/
inductive KeyKind where
  | guild
  | member
  | channel
  | channelMessage
  | presence
  | voiceState
  | selfUser
  deriving DecidableEq, Repr

/-- The tag byte of a kind: its `KeyType` constant, and the byte of `KeySelfUser`. -/
def KeyKind.tag : KeyKind → Nat
  | .guild => KeyTypeGuild
  | .member => KeyTypeMember
  | .channel => KeyTypeChannel
  | .channelMessage => KeyTypeChannelMessage
  | .presence => KeyTypePresence
  | .voiceState => KeyTypeVoiceState
  | .selfUser => 113

/-- The key length of a kind: 9 bytes with one id, 17 with two, 1 for the self user. -/
def KeyKind.keyLength : KeyKind → Nat
  | .guild => 9
  | .member => 17
  | .channel => 9
  | .channelMessage => 17
  | .presence => 9
  | .voiceState => 17
  | .selfUser => 1

/-- A stored entity, named by its kind and its id strings. -/
inductive Entity where
  | guild (guildID : String)
  | member (guildID userID : String)
  | channel (channelID : String)
  | channelMessage (channelID messageID : String)
  | presence (userID : String)
  | voiceState (guildID userID : String)
  | selfUser
  deriving DecidableEq, Repr

/-- The kind of an entity. -/
def Entity.kind : Entity → KeyKind
  | .guild _ => .guild
  | .member _ _ => .member
  | .channel _ => .channel
  | .channelMessage _ _ => .channelMessage
  | .presence _ => .presence
  | .voiceState _ _ => .voiceState
  | .selfUser => .selfUser

/-- The id strings of an entity, parent first. -/
def Entity.ids : Entity → List String
  | .guild g => [g]
  | .member g u => [g, u]
  | .channel c => [c]
  | .channelMessage c m => [c, m]
  | .presence u => [u]
  | .voiceState g u => [g, u]
  | .selfUser => []

/-- The key an entity is stored under: the key function of its kind. -/
def Entity.key : Entity → List Nat
  | .guild g => KeyGuild g
  | .member g u => KeyGuildMember g u
  | .channel c => KeyChannel c
  | .channelMessage c m => KeyChannelMessage c m
  | .presence u => KeyPresence u
  | .voiceState g u => KeyVoiceState g u
  | .selfUser => KeySelfUser

/-- The struct `discordgo.User`, whose fields are strings and booleans: it holds no
pointer, slice or map, so the assignment `*cop = *user` copies all of it. -/
structure User where
  ID : String
  Email : String
  Username : String
  Avatar : String
  Locale : String
  Discriminator : String
  Token : String
  Verified : Bool
  MFAEnabled : Bool
  Bot : Bool
  deriving DecidableEq, Repr

/-- The memory `SelfUser` works on: the allocated `User` structs (a pointer is the
index of its struct, `new` allocates the next index) and the field
`memoryState.User`, nil or a pointer. -/
structure Memory where
  cells : List User
  User : Option Nat
  deriving DecidableEq, Repr

/-- The struct a pointer points to. -/
def Memory.load (m : Memory) (p : Nat) : Option Dbstate.User := m.cells[p]?

/-- An assignment through a pointer, `*p = u`. -/
def Memory.store (m : Memory) (p : Nat) (u : Dbstate.User) : Memory :=
  { m with cells := m.cells.set p u }

/-- Every pointer held in `memoryState.User` points to an allocated struct. -/
def Memory.wellFormed (m : Memory) : Prop := ∀ p, m.User = some p → p < m.cells.length

/-- The method `State.SelfUser`: the returned pointer (`none` for nil) and the
memory after the call; `none` if the held pointer points nowhere, which no Go
program reaches. -/
def SelfUser (m : Memory) : Option (Option Nat × Memory) :=
  match m.User with
  | none => some (none, m)
  | some p =>
    match m.load p with
    | none => none
    | some u => some (some m.cells.length, { m with cells := m.cells ++ [u] })

/-- A user value with the given name, for the examples. -/
def userNamed (name : String) : Dbstate.User :=
  { ID := "1", Email := "", Username := name, Avatar := "", Locale := "", Discriminator := "0001",
    Token := "", Verified := false, MFAEnabled := false, Bot := true }

/-- The iteration of `iterateEntries`, which also records what the callback
returned at each of its invocations, in order. -/
def iterateEntriesTraced {σ : Type} (f : σ → Nat → Message → σ × Bool) :
    List (Nat × Message) → σ → σ × List Bool
  | [], st => (st, [])
  | (flags, m) :: rest, st =>
    match f st flags m with
    | (st1, true) => ((iterateEntriesTraced f rest st1).1, true :: (iterateEntriesTraced f rest st1).2)
    | (st1, false) => (st1, [false])

/-- What the callback of `LastChannelMessagesWithTxn` returns at each invocation
the iterator makes on the delivered range; its length is the number of entries
visited. -/
def callbackResults (entries : List (Nat × Message)) (n : Int) (includeDeleted : Bool) :
    List Bool :=
  (iterateEntriesTraced (lastChannelMessagesCallback n includeDeleted) entries []).2

/-- A call on the presence filter: `clear()` or `checkUserID(shardID, userID)`. -/
inductive FilterCall where
  | clear
  | check (shardID : Nat) (userID : String)
  deriving DecidableEq, Repr

/-- A sequential run of calls on the filter: the filter at the end, `none` if a
`checkUserID` call panics. -/
def runCalls (f : presenceUpdateFilter) : List FilterCall → Option presenceUpdateFilter
  | [] => some f
  | FilterCall.clear :: rest => runCalls f.clear rest
  | FilterCall.check shardID userID :: rest =>
    match f.checkUserID shardID userID with
    | none => none
    | some (_, f1) => runCalls f1 rest

/-- The invariant of the filter: the outer list has `numShards` entries and no
user id occurs twice in the shard lists taken together. -/
def filterInvariant (f : presenceUpdateFilter) : Prop :=
  f.recentlyProcessedPresenceUpdates.length = f.numShards ∧
  f.recentlyProcessedPresenceUpdates.flatten.Nodup

/-- The value of the runtime constant `maxAlloc` on 64-bit Linux, where heap
addresses have 48 bits. -/
def maxAlloc64 : Nat := 281474976710656

/-- The call `LastChannelMessagesWithTxn` together with the record of what its
callback returned at each invocation: `none` when `make` panics, before the
iterator is called and so before any entry is visited. -/
def LastChannelMessagesTraced (maxAlloc : Nat) (entries : List (Nat × Message)) (n : Int)
    (includeDeleted : Bool) : Option (List MessageWithMeta × List Bool) :=
  if makeSucceeds maxAlloc (resultCapacity n) then
    some (iterateEntriesTraced (lastChannelMessagesCallback n includeDeleted) entries [])
  else none

/-- One write made through a badger transaction: the key, the value bytes and
the expiry, `none` for `Txn.Set` and `some ttl` for `Txn.SetWithTTL`. -/
structure Write where
  key : List Nat
  value : List Nat
  ttl : Option Int
  deriving DecidableEq, Repr

/-- A badger read-write transaction, as the writes accepted through it so far. -/
structure Txn where
  writes : List Write
  deriving DecidableEq, Repr

/-- The call `txn.SetEntry(e)` of the badger library, which `Set` and `SetWithTTL`
both end in. Badger checks the write first (a read-only or discarded transaction,
an empty or oversized key, an oversized value, a transaction grown too big) and
then returns an error and records nothing. These checks of the library are the
parameter `refuses`: the error for a refused write, `none` for an accepted one. -/
def Txn.SetEntry (refuses : Txn → Write → Option Error) (tx : Txn) (w : Write) :
    Txn × Option Error :=
  match refuses tx w with
  | some err => (tx, some err)
  | none => ({ writes := tx.writes ++ [w] }, none)

/-- The call `tx.Set(key, value)` of the badger library: a write without expiry. -/
def Txn.Set (refuses : Txn → Write → Option Error) (tx : Txn) (key value : List Nat) :
    Txn × Option Error :=
  tx.SetEntry refuses { key := key, value := value, ttl := none }

/-- The call `tx.SetWithTTL(key, value, dur)` of the badger library: a write with
expiry `dur`. -/
def Txn.SetWithTTL (refuses : Txn → Write → Option Error) (tx : Txn) (key value : List Nat)
    (dur : Int) : Txn × Option Error :=
  tx.SetEntry refuses { key := key, value := value, ttl := some dur }

/-- The call `errors.WithMessage(err, message)`: a new error value, which is none
of the errors the package compares against; the model keeps the message. -/
def withMessage (_err : Error) (message : String) : Error := Error.other message

/-- The method `State.encodeData`. `buffer` is the caller's buffer, nil (`none`)
or holding the given unread bytes; `enc` says whether an encoder is passed, which
writes to the buffer it is passed with, as the one the function makes itself
does. `encode` gives the bytes the jsoniter encoder writes for a value, or its
error. With a buffer and an encoder the returned bytes are all unread bytes of
the buffer, the old ones followed by the encoding, and the buffer is reset;
otherwise a new buffer is used and the caller's is left alone. The result is the
returned pair and the caller's buffer after the call. -/
def encodeData {α : Type} (encode : α → Except Error (List Nat))
    (buffer : Option (List Nat)) (enc : Bool) (val : α) :
    Except Error (List Nat) × Option (List Nat) :=
  match buffer, enc with
  | some content, true =>
    match encode val with
    | .error err => (.error err, some [])
    | .ok encoded => (.ok (content ++ encoded), some [])
  | _, _ =>
    match encode val with
    | .error err => (.error err, buffer)
    | .ok encoded => (.ok encoded, buffer)

/-- Lines 40 to 55 of `State.SetKeyWithTTL`, the path with a transaction at hand:
the transaction after the call, the caller's buffer after the call (reset at the
end when it is not nil) and the returned error. `ttl` is a `time.Duration`, an
integer number of nanoseconds. -/
def setKeyInTxn {α : Type} (encode : α → Except Error (List Nat))
    (refuses : Txn → Write → Option Error) (tx : Txn) (buffer : Option (List Nat))
    (enc : Bool) (key : List Nat) (val : α) (ttl : Int) :
    Txn × Option (List Nat) × Option Error :=
  match encodeData encode buffer enc val with
  | (.error err, buffer1) => (tx, buffer1, some (withMessage err "EncodeData"))
  | (.ok encoded, buffer1) =>
    match (if ttl > 0 then tx.SetWithTTL refuses key encoded ttl
      else tx.Set refuses key encoded) with
    | (tx1, err) => (tx1, buffer1.map (fun _ => []), err)

/-- The call `s.DB.Update(fn)` of the badger library, run number `run`, on a store
holding the committed writes `db`. `fn` runs on a fresh transaction, with the
state `st` of the variables it captures; if it returns an error the transaction
is discarded and the error returned; otherwise the transaction is committed, and
`commit run` says whether the commit succeeds (`none`) or fails, for instance
with `ErrConflict`, leaving the store unchanged. -/
def dbUpdate {σ : Type} (commit : Nat → Option Error) (run : Nat)
    (fn : σ → Txn → Txn × σ × Option Error) (st : σ) (db : List Write) :
    List Write × σ × Option Error :=
  match fn st { writes := [] } with
  | (_, st1, some err) => (db, st1, some err)
  | (tx, st1, none) =>
    match commit run with
    | some err => (db, st1, some err)
    | none => (db ++ tx.writes, st1, none)

/-- The loop of `State.RetryUpdate` run against the store `db`, with fuel as in
`RetryUpdate`: the store, the state of the captured variables, the returned
error and the number of runs. -/
def RetryUpdateOn {σ : Type} (commit : Nat → Option Error)
    (fn : σ → Txn → Txn × σ × Option Error) :
    Nat → Nat → σ → List Write → Option (List Write × σ × Option Error × Nat)
  | 0, _, _, _ => none
  | fuel + 1, runs, st, db =>
    match dbUpdate commit runs fn st db with
    | (db1, st1, none) => some (db1, st1, none, runs + 1)
    | (db1, st1, some err) =>
      if err = Error.ErrConflict then RetryUpdateOn commit fn fuel (runs + 1) st1 db1
      else some (db1, st1, some err, runs + 1)

/-- The method `State.SetKeyWithTTL`: with no transaction (`tx = none`) it runs
the path with a transaction inside `RetryUpdate` (the closure calls
`SetKeyWithTTL` again with the transaction `Update` hands it, and captures the
buffer); the result is the store, the caller's transaction, the caller's buffer
and the returned error, `none` when the fuel of the retry loop ends. -/
def SetKeyWithTTL {α : Type} (encode : α → Except Error (List Nat))
    (refuses : Txn → Write → Option Error) (commit : Nat → Option Error) (fuel : Nat)
    (db : List Write) (tx : Option Txn) (buffer : Option (List Nat)) (enc : Bool)
    (key : List Nat) (val : α) (ttl : Int) :
    Option (List Write × Option Txn × Option (List Nat) × Option Error) :=
  match tx with
  | none =>
    match RetryUpdateOn commit
        (fun captured txn => setKeyInTxn encode refuses txn captured enc key val ttl)
        fuel 0 buffer db with
    | none => none
    | some (db1, buffer1, err, _) => some (db1, none, buffer1, err)
  | some tx =>
    match setKeyInTxn encode refuses tx buffer enc key val ttl with
    | (tx1, buffer1, err) => some (db, some tx1, buffer1, err)

/-- The method `State.SetKey`: `SetKeyWithTTL` with `ttl = -1`. -/
def SetKey {α : Type} (encode : α → Except Error (List Nat))
    (refuses : Txn → Write → Option Error) (commit : Nat → Option Error) (fuel : Nat)
    (db : List Write) (tx : Option Txn) (buffer : Option (List Nat)) (enc : Bool)
    (key : List Nat) (val : α) : Option (List Write × Option Txn × Option (List Nat) × Option Error) :=
  SetKeyWithTTL encode refuses commit fuel db tx buffer enc key val (-1)

/-- The write `SetKeyWithTTL` asks for: expiry `ttl` when `ttl > 0`, none otherwise. -/
def writeFor (key value : List Nat) (ttl : Int) : Write :=
  { key := key, value := value, ttl := if ttl > 0 then some ttl else none }

/-- The buffer holds no unread bytes that `encodeData` would hand back: it is nil,
or empty, or no encoder is passed with it. -/
def cleanBuffer (buffer : Option (List Nat)) (enc : Bool) : Prop :=
  ∀ content, buffer = some content → enc = true → content = []

/-- The state of the variables the closure captures before run number `run` of
the retry loop, if the loop gets that far. -/
def capturedBefore {σ : Type} (fn : σ → Txn → Txn × σ × Option Error) (st : σ) : Nat → σ
  | 0 => st
  | run + 1 => (fn (capturedBefore fn st run) { writes := [] }).2.1

/-- An encoder for byte lists that never fails: it writes its argument. -/
def plainEncode (val : List Nat) : Except Error (List Nat) := .ok val

/-- A store that accepts every write. -/
def acceptAll (_tx : Txn) (_w : Write) : Option Error := none

/-- Of badger's checks, the one on the key: an empty key is refused. -/
def refuseEmptyKey (_tx : Txn) (w : Write) : Option Error :=
  if w.key = [] then some (Error.other "Key cannot be empty") else none

/-! ## Theorems -/

/-! ### Key codec -/

/-- C1 (fails on the code): ids are written little-endian, so byte-lexicographic
key order is not numeric id order. For each of the six key kinds, with the parent
fixed where there is one, the key built for id 256 is byte-lexicographically less
than the key built for id 1, although 256 is not less than 1. -/
theorem key_order_differs_from_id_order :
    parseID "256" = 256 ∧ parseID "1" = 1 ∧ ¬ ((256 : Nat) < 1) ∧
    bytesLess (KeyGuildMember "7" "256") (KeyGuildMember "7" "1") = true ∧
    bytesLess (KeyChannelMessage "7" "256") (KeyChannelMessage "7" "1") = true ∧
    bytesLess (KeyVoiceState "7" "256") (KeyVoiceState "7" "1") = true ∧
    bytesLess (KeyGuild "256") (KeyGuild "1") = true ∧
    bytesLess (KeyChannel "256") (KeyChannel "1") = true ∧
    bytesLess (KeyPresence "256") (KeyPresence "1") = true := by
  decide

/-! ### LastChannelMessages -/

theorem lastChannelMessagesCallback_skip (n : Int) (includeDeleted : Bool)
    (acc : List MessageWithMeta) (flags : Nat) (m : Message)
    (h : (includeDeleted || !flagDeleted flags) = false) :
    lastChannelMessagesCallback n includeDeleted acc flags m = (acc, true) := by
  have h1 : (!includeDeleted && flagDeleted flags) = true := by
    cases includeDeleted <;> cases hd : flagDeleted flags <;> simp_all
  unfold lastChannelMessagesCallback
  simp only [flagDeleted] at h1
  simp only [h1, if_true]

theorem lastChannelMessagesCallback_stop (n : Int) (includeDeleted : Bool)
    (acc : List MessageWithMeta) (flags : Nat) (m : Message)
    (h : (includeDeleted || !flagDeleted flags) = true)
    (hc : 0 < n ∧ n ≤ (acc.length : Int) + 1) :
    lastChannelMessagesCallback n includeDeleted acc flags m =
      (acc ++ [(⟨m, flagDeleted flags⟩ : MessageWithMeta)], false) := by
  have h1 : (!includeDeleted && flagDeleted flags) = false := by
    cases includeDeleted <;> cases hd : flagDeleted flags <;> simp_all
  unfold lastChannelMessagesCallback
  simp only [flagDeleted] at h1 ⊢
  simp only [h1, List.length_append, List.length_singleton]
  simp [hc.1, hc.2]

theorem lastChannelMessagesCallback_go (n : Int) (includeDeleted : Bool)
    (acc : List MessageWithMeta) (flags : Nat) (m : Message)
    (h : (includeDeleted || !flagDeleted flags) = true)
    (hc : ¬ (0 < n ∧ n ≤ (acc.length : Int) + 1)) :
    lastChannelMessagesCallback n includeDeleted acc flags m =
      (acc ++ [(⟨m, flagDeleted flags⟩ : MessageWithMeta)], true) := by
  have h1 : (!includeDeleted && flagDeleted flags) = false := by
    cases includeDeleted <;> cases hd : flagDeleted flags <;> simp_all
  unfold lastChannelMessagesCallback
  simp only [flagDeleted] at h1 ⊢
  simp only [h1, List.length_append, List.length_singleton]
  simp only [gt_iff_lt, ge_iff_le, Nat.cast_add, Nat.cast_one, if_neg hc]
  simp

theorem iterateEntries_unbounded (n : Int) (hn : n ≤ 0) (includeDeleted : Bool)
    (entries : List (Nat × Message)) (acc : List MessageWithMeta) :
    iterateEntries (lastChannelMessagesCallback n includeDeleted) entries acc =
      acc ++ passingEntries includeDeleted entries := by
  induction entries generalizing acc with
  | nil => simp [iterateEntries, passingEntries]
  | cons e rest ih =>
    obtain ⟨flags, m⟩ := e
    cases hp : (includeDeleted || !flagDeleted flags)
    · simp only [iterateEntries, lastChannelMessagesCallback_skip n includeDeleted acc flags m hp]
      rw [ih]
      simp [passingEntries, List.filter_cons, hp]
    · have hc : ¬ (0 < n ∧ n ≤ (acc.length : Int) + 1) := by omega
      simp only [iterateEntries, lastChannelMessagesCallback_go n includeDeleted acc flags m hp hc]
      rw [ih]
      simp [passingEntries, List.filter_cons, hp]

theorem iterateEntries_bounded (n : Int) (includeDeleted : Bool)
    (entries : List (Nat × Message)) (acc : List MessageWithMeta)
    (hacc : (acc.length : Int) < n) :
    iterateEntries (lastChannelMessagesCallback n includeDeleted) entries acc =
      acc ++ (passingEntries includeDeleted entries).take (n.toNat - acc.length) := by
  induction entries generalizing acc with
  | nil => simp [iterateEntries, passingEntries]
  | cons e rest ih =>
    obtain ⟨flags, m⟩ := e
    cases hp : (includeDeleted || !flagDeleted flags)
    · simp only [iterateEntries, lastChannelMessagesCallback_skip n includeDeleted acc flags m hp]
      rw [ih acc hacc]
      simp [passingEntries, List.filter_cons, hp]
    · have hpe : passingEntries includeDeleted ((flags, m) :: rest) =
          (⟨m, flagDeleted flags⟩ : MessageWithMeta) :: passingEntries includeDeleted rest := by
        simp [passingEntries, List.filter_cons, hp]
      obtain ⟨k, hk⟩ : ∃ k, n.toNat - acc.length = k + 1 := ⟨n.toNat - acc.length - 1, by omega⟩
      rw [hpe, hk, List.take_succ_cons]
      by_cases hc : 0 < n ∧ n ≤ (acc.length : Int) + 1
      · have hk0 : k = 0 := by omega
        simp [iterateEntries, lastChannelMessagesCallback_stop n includeDeleted acc flags m hp hc,
          hk0]
      · simp only [iterateEntries, lastChannelMessagesCallback_go n includeDeleted acc flags m hp hc]
        rw [ih _ (by simp only [List.length_append, List.length_singleton]; push_cast; omega)]
        have hk1 : n.toNat - (acc ++ [(⟨m, flagDeleted flags⟩ : MessageWithMeta)]).length = k := by
          simp only [List.length_append, List.length_singleton]; omega
        rw [hk1]
        simp

/-! ### RetryUpdate -/

theorem RetryUpdate_after_conflicts (update : Nat → Option Error) (k : Nat) (r : Option Error)
    (hr : update k = r) (hne : r ≠ some Error.ErrConflict) (fuel : Nat) :
    ∀ j, j ≤ k → k - j < fuel → (∀ i, j ≤ i → i < k → update i = some Error.ErrConflict) →
      RetryUpdate update fuel j = some (r, k + 1) := by
  induction fuel with
  | zero => intro j _ hf; omega
  | succ fuel ih =>
    intro j hjk hf hc
    rcases Nat.eq_or_lt_of_le hjk with hj | hj
    · subst hj
      cases hu : update j with
      | none => simp [RetryUpdate, hu, ← hr]
      | some err =>
        have herr : err ≠ Error.ErrConflict := by
          intro h; apply hne; rw [← hr, hu, h]
        simp [RetryUpdate, hu, ← hr, herr]
    · have hu := hc j (Nat.le_refl j) hj
      simp only [RetryUpdate, hu, if_true]
      exact ih (j + 1) hj (by omega) (fun i hi hik => hc i (by omega) hik)

theorem RetryUpdate_not_conflict (update : Nat → Option Error) (fuel : Nat) :
    ∀ j res runs, RetryUpdate update fuel j = some (res, runs) →
      res ≠ some Error.ErrConflict := by
  induction fuel with
  | zero => intro j res runs h; simp [RetryUpdate] at h
  | succ fuel ih =>
    intro j res runs h
    cases hu : update j with
    | none =>
      simp [RetryUpdate, hu] at h
      simp [← h.1]
    | some err =>
      by_cases herr : err = Error.ErrConflict
      · simp only [RetryUpdate, hu, herr, if_true] at h
        exact ih (j + 1) res runs h
      · simp [RetryUpdate, hu, herr] at h
        rw [← h.1]
        simpa using herr

/-- C8: when the runs of the update transaction give `k` times `ErrConflict` and
then a first other result `r` (nil or another error), `RetryUpdate` returns `r`
after exactly `k + 1` runs, given fuel for them; and whatever the runs give, a
result `RetryUpdate` returns is never `ErrConflict`. -/
theorem RetryUpdate_returns_first_non_conflict (update : Nat → Option Error) (k : Nat)
    (r : Option Error) (hc : ∀ i, i < k → update i = some Error.ErrConflict)
    (hr : update k = r) (hne : r ≠ some Error.ErrConflict) :
    (∀ fuel, k < fuel → RetryUpdate update fuel 0 = some (r, k + 1)) ∧
    (∀ (anyUpdate : Nat → Option Error) fuel res runs,
      RetryUpdate anyUpdate fuel 0 = some (res, runs) → res ≠ some Error.ErrConflict) := by
  refine ⟨fun fuel hf => ?_, fun anyUpdate fuel res runs h => ?_⟩
  · exact RetryUpdate_after_conflicts update k r hr hne fuel 0 (Nat.zero_le k) (by omega)
      (fun i _ hik => hc i hik)
  · exact RetryUpdate_not_conflict anyUpdate fuel 0 res runs h

/-- C8, witness: two conflicts and then success give the nil result after exactly
three runs of the function. -/
theorem RetryUpdate_two_conflicts_then_success :
    RetryUpdate twoConflictsThenSuccess 3 0 = some (none, 3) :=
  (RetryUpdate_returns_first_non_conflict twoConflictsThenSuccess 2 none
    (by decide) (by decide) (by decide)).1 3 (by decide)

/-! ### Presence filter -/

theorem scan_eq_true_iff (f : presenceUpdateFilter) (userID : String) :
    f.recentlyProcessedPresenceUpdates.any
      (fun shardList => shardList.any (fun v => decide (v = userID))) = true ↔
    recorded f userID := by
  simp [recorded, List.any_eq_true]

theorem mem_set_append (lists : List (List String)) (i : Nat) (shardList : List String)
    (userID x : String) (hget : lists.get? i = some shardList) :
    (∃ l ∈ lists.set i (shardList ++ [userID]), x ∈ l) ↔ (∃ l ∈ lists, x ∈ l) ∨ x = userID := by
  induction lists generalizing i with
  | nil => simp at hget
  | cons hd tl ih =>
    cases i with
    | zero =>
      simp only [List.get?_cons_zero, Option.some.injEq] at hget
      subst hget
      simp only [List.set_cons_zero, List.mem_cons, exists_eq_or_imp, List.mem_append,
        List.mem_singleton]
      generalize (∃ a ∈ tl, x ∈ a) = p
      tauto
    | succ i =>
      simp only [List.get?_cons_succ] at hget
      simp only [List.set_cons_succ, List.mem_cons, exists_eq_or_imp, ih i hget]
      generalize (∃ l ∈ tl, x ∈ l) = p
      tauto

theorem checkUserID_seen (f : presenceUpdateFilter) (shardID : Nat) (userID : String)
    (h : recorded f userID) : f.checkUserID shardID userID = some (true, f) := by
  unfold presenceUpdateFilter.checkUserID
  rw [if_pos ((scan_eq_true_iff f userID).2 h)]

theorem checkUserID_new (f : presenceUpdateFilter) (shardID : Nat) (userID : String)
    (h : ¬ recorded f userID) (hs : shardID < f.recentlyProcessedPresenceUpdates.length) :
    ∃ f1, f.checkUserID shardID userID = some (false, f1) ∧
      f1.recentlyProcessedPresenceUpdates.length = f.recentlyProcessedPresenceUpdates.length ∧
      f1.numShards = f.numShards ∧
      ∀ x, recorded f1 x ↔ recorded f x ∨ x = userID := by
  obtain ⟨shardList, hget⟩ : ∃ shardList,
      f.recentlyProcessedPresenceUpdates.get? shardID = some shardList :=
    ⟨f.recentlyProcessedPresenceUpdates.get ⟨shardID, hs⟩, List.get?_eq_get hs⟩
  refine ⟨{ f with recentlyProcessedPresenceUpdates :=
      f.recentlyProcessedPresenceUpdates.set shardID (shardList ++ [userID]) }, ?_, ?_, rfl, ?_⟩
  · unfold presenceUpdateFilter.checkUserID
    rw [if_neg (fun hh => h ((scan_eq_true_iff f userID).1 hh)), hget]
  · simp
  · intro x
    exact mem_set_append f.recentlyProcessedPresenceUpdates shardID shardList userID x hget

theorem runChecks_results (calls : List (Nat × String)) :
    ∀ f : presenceUpdateFilter,
      (∀ c ∈ calls, c.1 < f.recentlyProcessedPresenceUpdates.length) →
      ∃ results f1, runChecks f calls = some (results, f1) ∧
        results.length = calls.length ∧
        ∀ i c, calls.get? i = some c →
          ∃ b, results.get? i = some b ∧
            (b = true ↔ recorded f c.2 ∨ c.2 ∈ (calls.take i).map Prod.snd) := by
  induction calls with
  | nil => intro f _; exact ⟨[], f, rfl, rfl, by simp⟩
  | cons c rest ih =>
    intro f hs
    have hc : c.1 < f.recentlyProcessedPresenceUpdates.length := hs c (List.mem_cons_self _ _)
    by_cases hrec : recorded f c.2
    · obtain ⟨results, f1, hrun, hlen, hres⟩ :=
        ih f (fun d hd => hs d (List.mem_cons_of_mem _ hd))
      refine ⟨true :: results, f1, ?_, by simp [hlen], ?_⟩
      · simp [runChecks, checkUserID_seen f c.1 c.2 hrec, hrun]
      · intro i d hd
        cases i with
        | zero =>
          simp only [List.get?_cons_zero, Option.some.injEq] at hd
          subst hd
          exact ⟨true, rfl, by simp [hrec]⟩
        | succ i =>
          simp only [List.get?_cons_succ] at hd
          obtain ⟨b, hb, hiff⟩ := hres i d hd
          refine ⟨b, by simpa using hb, ?_⟩
          rw [hiff]
          simp only [List.take_succ_cons, List.map_cons, List.mem_cons]
          constructor
          · rintro (h | h)
            · exact Or.inl h
            · exact Or.inr (Or.inr h)
          · rintro (h | h | h)
            · exact Or.inl h
            · exact Or.inl (h ▸ hrec)
            · exact Or.inr h
    · obtain ⟨g, hcheck, hglen, _, hgrec⟩ := checkUserID_new f c.1 c.2 hrec hc
      obtain ⟨results, f1, hrun, hlen, hres⟩ :=
        ih g (fun d hd => by rw [hglen]; exact hs d (List.mem_cons_of_mem _ hd))
      refine ⟨false :: results, f1, ?_, by simp [hlen], ?_⟩
      · simp [runChecks, hcheck, hrun]
      · intro i d hd
        cases i with
        | zero =>
          simp only [List.get?_cons_zero, Option.some.injEq] at hd
          subst hd
          exact ⟨false, rfl, by simp [hrec]⟩
        | succ i =>
          simp only [List.get?_cons_succ] at hd
          obtain ⟨b, hb, hiff⟩ := hres i d hd
          refine ⟨b, by simpa using hb, ?_⟩
          rw [hiff, hgrec]
          simp only [List.take_succ_cons, List.map_cons, List.mem_cons]
          tauto

theorem not_recorded_emptyFilter (numShards : Nat) (userID : String) :
    ¬ recorded (emptyFilter numShards) userID := by
  rintro ⟨l, hl, hu⟩
  simp only [emptyFilter] at hl
  rw [List.eq_of_mem_replicate hl] at hu
  simp at hu

/-- C9: from a filter of `numShards` empty lists, a run of `checkUserID` calls with
shard ids below `numShards` and no `clear` never panics, and the call number `i`
returns true exactly when an earlier call of the run had the same user id (from
whatever shard): the first call for a user id returns false, every later one true. -/
theorem checkUserID_false_once_then_true (numShards : Nat) (calls : List (Nat × String))
    (hs : ∀ c ∈ calls, c.1 < numShards) :
    ∃ results f1, runChecks (emptyFilter numShards) calls = some (results, f1) ∧
      results.length = calls.length ∧
      ∀ i c, calls.get? i = some c →
        results.get? i = some (decide (c.2 ∈ (calls.take i).map Prod.snd)) := by
  obtain ⟨results, f1, hrun, hlen, hres⟩ :=
    runChecks_results calls (emptyFilter numShards) (by simpa [emptyFilter] using hs)
  refine ⟨results, f1, hrun, hlen, fun i c hc => ?_⟩
  obtain ⟨b, hb, hiff⟩ := hres i c hc
  rw [hb]
  have hno := not_recorded_emptyFilter numShards c.2
  cases b with
  | true =>
    have := hiff.1 rfl
    simp [hno] at this
    simpa using this
  | false =>
    have : ¬ (c.2 ∈ (calls.take i).map Prod.snd) := fun h => by
      have := hiff.2 (Or.inr h)
      simp at this
    simpa using this

/-- C9, witness: with three shards, `checkUserID(0, "u1")` is false and then
`checkUserID(s, "u1")` is true for each shard `s`. -/
theorem checkUserID_u1_witness :
    (∀ c ∈ [(0, "u1"), (0, "u1"), (1, "u1"), (2, "u1")], c.1 < 3) ∧
    ∃ results f1,
      runChecks (emptyFilter 3) [(0, "u1"), (0, "u1"), (1, "u1"), (2, "u1")] =
        some (results, f1) ∧
      results.length = [(0, "u1"), (0, "u1"), (1, "u1"), (2, "u1")].length ∧
      ∀ i c, [(0, "u1"), (0, "u1"), (1, "u1"), (2, "u1")].get? i = some c →
        results.get? i = some (decide (c.2 ∈
          ([(0, "u1"), (0, "u1"), (1, "u1"), (2, "u1")].take i).map Prod.snd)) :=
  ⟨by decide,
    checkUserID_false_once_then_true 3 [(0, "u1"), (0, "u1"), (1, "u1"), (2, "u1")] (by decide)⟩

/-- C10: `clear` leaves `numShards` unchanged and makes the lists exactly
`numShards` empty lists, whatever they held; after it, the first `checkUserID`
call with a shard id below `numShards` returns false for every user id, and
records the id in that shard's list only. -/
theorem clear_resets_filter (f : presenceUpdateFilter) :
    f.clear.recentlyProcessedPresenceUpdates = List.replicate f.numShards [] ∧
    f.clear.numShards = f.numShards ∧
    ∀ shardID userID, shardID < f.numShards →
      f.clear.checkUserID shardID userID =
        some (false, { recentlyProcessedPresenceUpdates :=
                         (List.replicate f.numShards []).set shardID [userID],
                       numShards := f.numShards }) := by
  refine ⟨rfl, rfl, fun shardID userID hs => ?_⟩
  have hno : ¬ recorded f.clear userID := not_recorded_emptyFilter f.numShards userID
  have hget : (List.replicate f.numShards ([] : List String)).get? shardID = some [] := by
    rw [List.get?_eq_get (by simpa using hs)]
    simp
  unfold presenceUpdateFilter.checkUserID
  rw [if_neg (fun hh => hno ((scan_eq_true_iff f.clear userID).1 hh))]
  simp only [presenceUpdateFilter.clear, hget, List.nil_append]

/-- C10, witness: a filter of two shards that holds "u1" answers false for "u1"
again after `clear`. -/
theorem clear_forgets_u1 :
    (0 : Nat) < 2 ∧
    (presenceUpdateFilter.clear { recentlyProcessedPresenceUpdates := [["u1"], ["u2"]],
                                  numShards := 2 }).checkUserID 0 "u1" =
      some (false, { recentlyProcessedPresenceUpdates := [["u1"], []], numShards := 2 }) :=
  ⟨by decide,
    (clear_resets_filter { recentlyProcessedPresenceUpdates := [["u1"], ["u2"]],
                           numShards := 2 }).2.2 0 "u1" (by decide)⟩

/-! ### Bit operations on `Int` -/

theorem int_eq_of_testBit_eq {x y : Int} (h : ∀ i, x.testBit i = y.testBit i) : x = y := by
  have hfalse : ∀ m n : Nat, (∀ i, m.testBit i = !n.testBit i) → False := by
    intro m n hmn
    have h1 : m.testBit (m + n) = false :=
      Nat.testBit_lt_two_pow (lt_of_le_of_lt (Nat.le_add_right m n) (Nat.lt_two_pow _))
    have h2 : n.testBit (m + n) = false :=
      Nat.testBit_lt_two_pow (lt_of_le_of_lt (Nat.le_add_left n m) (Nat.lt_two_pow _))
    have := hmn (m + n)
    rw [h1, h2] at this
    exact Bool.noConfusion this
  cases x with
  | ofNat m =>
    cases y with
    | ofNat n => exact congrArg Int.ofNat (Nat.eq_of_testBit_eq h)
    | negSucc n => exact (hfalse m n h).elim
  | negSucc m =>
    cases y with
    | ofNat n =>
      exact (hfalse n m (fun i => (h i).symm)).elim
    | negSucc n =>
      refine congrArg Int.negSucc (Nat.eq_of_testBit_eq (fun i => ?_))
      have := h i
      simp only [Int.testBit] at this
      simpa using this

theorem testBit_zero_int (i : Nat) : (0 : Int).testBit i = false := by
  show Nat.testBit 0 i = false
  simp

theorem lor_zero_left (x : Int) : Int.lor 0 x = x :=
  int_eq_of_testBit_eq (fun i => by simp [Int.testBit_lor, testBit_zero_int])

theorem testBit_applyOverwrite (p d a : Int) (i : Nat) :
    (applyOverwrite p d a).testBit i = ((p.testBit i && !d.testBit i) || a.testBit i) := by
  simp [applyOverwrite, Int.testBit_lor, Int.testBit_land, Int.testBit_lnot]

theorem applyOverwrite_zero (p : Int) : applyOverwrite p 0 0 = p :=
  int_eq_of_testBit_eq (fun i => by simp [testBit_applyOverwrite, testBit_zero_int])

theorem hasAdministrator_iff (k : Permissions) (p : Int) :
    hasAdministrator k p ↔
      ∀ i, k.PermissionAdministrator.testBit i = true → p.testBit i = true := by
  unfold hasAdministrator
  constructor
  · intro h i hi
    have := congrArg (fun z => Int.testBit z i) h
    simp only [Int.testBit_land, hi, Bool.and_true] at this
    exact this
  · intro h
    refine int_eq_of_testBit_eq (fun i => ?_)
    rw [Int.testBit_land]
    cases hk : k.PermissionAdministrator.testBit i
    · simp
    · simp [h i hk]

theorem testBit_foldl_lor (l : List Int) (init : Int) (i : Nat) :
    (l.foldl Int.lor init).testBit i = (init.testBit i || l.any (fun x => x.testBit i)) := by
  induction l generalizing init with
  | nil => simp
  | cons x xs ih => simp [ih, Int.testBit_lor, Bool.or_assoc]

/-! ### The loops of MemberPermissions in closed form -/

theorem everyoneRoleLoop_eq (guildID : String) (roles : List Role) (ap : Int) :
    everyoneRoleLoop guildID roles ap =
      match roles.find? (fun role => decide (role.ID = guildID)) with
      | some role => Int.lor ap role.Permissions
      | none => ap := by
  induction roles with
  | nil => rfl
  | cons role rest ih =>
    by_cases h : role.ID = guildID
    · simp [everyoneRoleLoop, List.find?_cons, h]
    · simp [everyoneRoleLoop, List.find?_cons, h, ih]

theorem any_roleID_eq (memberRoles : List String) (id : String) :
    memberRoles.any (fun roleID => decide (id = roleID)) = decide (id ∈ memberRoles) := by
  rw [Bool.eq_iff_iff]
  simp [List.any_eq_true]

theorem memberRolesLoop_eq (memberRoles : List String) (roles : List Role) (ap : Int) :
    memberRolesLoop memberRoles roles ap =
      ((roles.filter (fun role => decide (role.ID ∈ memberRoles))).map
        (fun role => role.Permissions)).foldl Int.lor ap := by
  induction roles generalizing ap with
  | nil => rfl
  | cons role rest ih =>
    by_cases h : role.ID ∈ memberRoles
    · simp [memberRolesLoop, any_roleID_eq, List.filter_cons, h, ih]
    · simp [memberRolesLoop, any_roleID_eq, List.filter_cons, h, ih]

theorem base_loops_eq (g : Guild) (member : Member) :
    memberRolesLoop member.Roles g.Roles (everyoneRoleLoop g.ID g.Roles 0) =
      basePermissions g member := by
  rw [memberRolesLoop_eq, everyoneRoleLoop_eq]
  unfold basePermissions everyoneRolePermissions
  cases g.Roles.find? (fun role => decide (role.ID = g.ID)) with
  | none => rfl
  | some role => simp only [lor_zero_left]

theorem everyoneOverwriteLoop_eq (g : Guild) (channel : Channel) (ap : Int) :
    everyoneOverwriteLoop g.ID channel.PermissionOverwrites ap =
      applyOverwrite ap (everyoneOverwrite g channel).1 (everyoneOverwrite g channel).2 := by
  unfold everyoneOverwrite
  induction channel.PermissionOverwrites with
  | nil => simp [everyoneOverwriteLoop, applyOverwrite_zero]
  | cons o rest ih =>
    by_cases h : o.ID = g.ID
    · simp [everyoneOverwriteLoop, List.find?_cons, h]
    · have h2 : ¬ g.ID = o.ID := fun hh => h hh.symm
      simp [everyoneOverwriteLoop, List.find?_cons, h, h2, ih]

theorem any_role_overwrite_eq (memberRoles : List String) (o : PermissionOverwrite) :
    memberRoles.any (fun roleID => decide (o.Type_ = "role" ∧ roleID = o.ID)) =
      decide (o.Type_ = "role" ∧ o.ID ∈ memberRoles) := by
  rw [Bool.eq_iff_iff]
  simp only [List.any_eq_true, decide_eq_true_eq]
  constructor
  · rintro ⟨roleID, hmem, htype, heq⟩
    exact ⟨htype, heq ▸ hmem⟩
  · rintro ⟨htype, hmem⟩
    exact ⟨o.ID, hmem, htype, rfl⟩

theorem roleOverwritesLoop_eq (memberRoles : List String) (ows : List PermissionOverwrite)
    (denies allows : Int) :
    roleOverwritesLoop memberRoles ows (denies, allows) =
      (((ows.filter (fun o => decide (o.Type_ = "role" ∧ o.ID ∈ memberRoles))).map
          (fun o => o.Deny)).foldl Int.lor denies,
       ((ows.filter (fun o => decide (o.Type_ = "role" ∧ o.ID ∈ memberRoles))).map
          (fun o => o.Allow)).foldl Int.lor allows) := by
  induction ows generalizing denies allows with
  | nil => rfl
  | cons o rest ih =>
    have hany := any_role_overwrite_eq memberRoles o
    by_cases h : o.Type_ = "role" ∧ o.ID ∈ memberRoles
    · rw [decide_eq_true h] at hany
      rw [roleOverwritesLoop, if_pos hany, ih]
      simp [List.filter_cons, h]
    · rw [decide_eq_false h] at hany
      rw [roleOverwritesLoop, if_neg (by rw [hany]; exact Bool.false_ne_true), ih]
      simp [List.filter_cons, h]

theorem memberOverwriteLoop_eq (channel : Channel) (memberID : String) (ap : Int) :
    memberOverwriteLoop memberID channel.PermissionOverwrites ap =
      applyOverwrite ap (memberOverwrite channel memberID).1
        (memberOverwrite channel memberID).2 := by
  unfold memberOverwrite
  induction channel.PermissionOverwrites with
  | nil => simp [memberOverwriteLoop, applyOverwrite_zero]
  | cons o rest ih =>
    by_cases h : o.Type_ = "member" ∧ o.ID = memberID
    · simp [memberOverwriteLoop, List.find?_cons, h]
    · simp only [memberOverwriteLoop, List.find?_cons, h, decide_False, if_false, ih]

theorem computePermissions_eq (k : Permissions) (g : Guild) (channel : Channel)
    (member : Member) (memberID : String) :
    computePermissions k g channel member memberID =
      if hasAdministrator k (basePermissions g member) then
        Int.lor (basePermissions g member) k.PermissionAll
      else if hasAdministrator k (overwriteResult g channel member memberID) then
        Int.lor (overwriteResult g channel member memberID) k.PermissionAllChannel
      else overwriteResult g channel member memberID := by
  unfold computePermissions
  simp only [base_loops_eq, everyoneOverwriteLoop_eq, memberOverwriteLoop_eq,
    roleOverwritesLoop_eq]
  rfl

theorem MemberPermissions_resolved (k : Permissions) (s : State) (g : Option Guild)
    (channelID memberID : String) (gg : Guild) (channel : Channel) (member : Member)
    (hres : resolveGuildChannel s g channelID = .ok (gg, channel))
    (hown : memberID ≠ gg.OwnerID)
    (hmem : s.GuildMember gg.ID memberID = .ok member) :
    MemberPermissions k s g channelID memberID =
      (computePermissions k gg channel member memberID, none) := by
  unfold MemberPermissions
  simp only [hres, hown, if_false, hmem]

/-! ### MemberPermissions -/

theorem findChannel_of_mem (channelID : String) (channels : List Channel) :
    ∀ start : Option Channel, (∃ c ∈ channels, c.ID = channelID) →
      ∃ channel, findChannel channelID channels start = some channel := by
  induction channels with
  | nil => intro _ h; simp at h
  | cons c rest ih =>
    intro start h
    by_cases hrest : ∃ d ∈ rest, d.ID = channelID
    · exact ih _ hrest
    · have hc : c.ID = channelID := by
        obtain ⟨d, hd, hid⟩ := h
        rcases List.mem_cons.1 hd with hd | hd
        · exact hd ▸ hid
        · exact (hrest ⟨d, hd, hid⟩).elim
      have hstay : ∀ (l : List Channel) (st : Channel), (¬ ∃ d ∈ l, d.ID = channelID) →
          findChannel channelID l (some st) = some st := by
        intro l
        induction l with
        | nil => intro st _; rfl
        | cons d l ihl =>
          intro st hno
          have hd : ¬ d.ID = channelID := fun hh => hno ⟨d, List.mem_cons_self _ _, hh⟩
          simp only [findChannel, hd, if_false]
          exact ihl st (fun ⟨e, he, hid⟩ => hno ⟨e, List.mem_cons_of_mem _ he, hid⟩)
      refine ⟨c, ?_⟩
      simp only [findChannel, hc, if_true]
      exact hstay rest c hrest

theorem resolveGuildChannel_ok (s : State) (g : Option Guild) (channelID : String) (gg : Guild)
    (hres : (g = some gg ∧ ∃ c ∈ gg.Channels, c.ID = channelID) ∨
      (g = none ∧ ∃ channel, s.Channel channelID = .ok channel ∧
        s.Guild channel.GuildID = .ok gg)) :
    ∃ channel, resolveGuildChannel s g channelID = .ok (gg, channel) := by
  rcases hres with ⟨hg, hc⟩ | ⟨hg, channel, hch, hgu⟩
  · subst hg
    obtain ⟨channel, hfind⟩ := findChannel_of_mem channelID gg.Channels none hc
    exact ⟨channel, by simp [resolveGuildChannel, hfind]⟩
  · subst hg
    exact ⟨channel, by simp [resolveGuildChannel, hch, hgu]⟩

/-- C2: when the channel resolves to guild `gg` (a guild is supplied and its channel
list has the channel id, or none is supplied and the channel and guild lookups
succeed) and the member id is the guild's owner id, `MemberPermissions` returns
exactly `PermissionAll` and a nil error, whatever the roles and overwrites and
whatever the member lookup would give, a failing lookup included. -/
theorem MemberPermissions_owner (k : Permissions) (s : State) (g : Option Guild)
    (channelID memberID : String) (gg : Guild)
    (hres : (g = some gg ∧ ∃ c ∈ gg.Channels, c.ID = channelID) ∨
      (g = none ∧ ∃ channel, s.Channel channelID = .ok channel ∧
        s.Guild channel.GuildID = .ok gg))
    (hown : memberID = gg.OwnerID) :
    ∀ lookup : String → String → Except Error Member,
      MemberPermissions k { s with GuildMember := lookup } g channelID memberID =
        (k.PermissionAll, none) := by
  intro lookup
  obtain ⟨channel, hch⟩ :=
    resolveGuildChannel_ok { s with GuildMember := lookup } g channelID gg hres
  unfold MemberPermissions
  simp only [hch, hown, if_true]

/-- C2, witness: the owner "9" of guild "1" gets `PermissionAll` in channel "5"
from a store without member records, with the guild supplied. -/
theorem MemberPermissions_owner_witness :
    MemberPermissions discordgo storeWithoutMembers (some guildOne) "5" "9" =
      (discordgo.PermissionAll, none) :=
  MemberPermissions_owner discordgo storeOne (some guildOne) "5" "9" guildOne
    (Or.inl ⟨rfl, channelFive, by decide, rfl⟩) rfl (fun _ _ => .error Error.ErrNotFound)

/-- C5: for a member who is not the owner, whose lookups succeed and whose base
permissions `P` lack the administrator bit, `MemberPermissions` returns
`R = ((((((P & ~De) | Ae) & ~Dr) | Ar) & ~Dm) | Am)` when `R` lacks the
administrator bit and `R | PermissionAllChannel` otherwise, with a nil error. -/
theorem MemberPermissions_overwrite_formula (k : Permissions) (s : State) (g : Option Guild)
    (channelID memberID : String) (gg : Guild) (channel : Channel) (member : Member)
    (hres : resolveGuildChannel s g channelID = .ok (gg, channel))
    (hown : memberID ≠ gg.OwnerID)
    (hmem : s.GuildMember gg.ID memberID = .ok member)
    (hbase : ¬ hasAdministrator k (basePermissions gg member)) :
    MemberPermissions k s g channelID memberID =
      (if hasAdministrator k (overwriteResult gg channel member memberID) then
        Int.lor (overwriteResult gg channel member memberID) k.PermissionAllChannel
       else overwriteResult gg channel member memberID, none) := by
  rw [MemberPermissions_resolved k s g channelID memberID gg channel member hres hown hmem,
    computePermissions_eq, if_neg hbase]

/-- C5, witness: member "7" of guild "1" in channel "6". -/
theorem MemberPermissions_overwrite_formula_witness :
    MemberPermissions discordgo storeOne (some guildOne) "6" "7" =
      (if hasAdministrator discordgo (overwriteResult guildOne channelSix (memberOf "7") "7") then
        Int.lor (overwriteResult guildOne channelSix (memberOf "7") "7")
          discordgo.PermissionAllChannel
       else overwriteResult guildOne channelSix (memberOf "7") "7", none) :=
  MemberPermissions_overwrite_formula discordgo storeOne (some guildOne) "6" "7" guildOne
    channelSix (memberOf "7") rfl (by decide) rfl (by decide)

theorem hasAdministrator_base (k : Permissions) (g : Guild) (member : Member)
    (hadmin : ∃ role ∈ g.Roles, hasAdministrator k role.Permissions ∧
      (g.Roles.find? (fun r => decide (r.ID = g.ID)) = some role ∨ role.ID ∈ member.Roles)) :
    hasAdministrator k (basePermissions g member) := by
  obtain ⟨role, hrole, hperm, hwhich⟩ := hadmin
  rw [hasAdministrator_iff] at hperm ⊢
  intro i hi
  unfold basePermissions
  rw [testBit_foldl_lor]
  rcases hwhich with hfind | hheld
  · simp [everyoneRolePermissions, hfind, hperm i hi]
  · have hany : ((g.Roles.filter (fun role => decide (role.ID ∈ member.Roles))).map
        (fun role => role.Permissions)).any (fun x => x.testBit i) = true := by
      rw [List.any_eq_true]
      exact ⟨role.Permissions,
        List.mem_map.2 ⟨role, List.mem_filter.2 ⟨hrole, by simpa using hheld⟩, rfl⟩, hperm i hi⟩
    rw [hany, Bool.or_true]

theorem findChannel_withOverwrites (f : Channel → List PermissionOverwrite)
    (channelID : String) (channels : List Channel) :
    ∀ start : Option Channel,
      findChannel channelID (channels.map (Channel.withOverwrites f))
          (start.map (Channel.withOverwrites f)) =
        (findChannel channelID channels start).map (Channel.withOverwrites f) := by
  induction channels with
  | nil => intro start; rfl
  | cons c rest ih =>
    intro start
    simp only [List.map_cons, findChannel]
    have hid : (Channel.withOverwrites f c).ID = c.ID := rfl
    rw [hid]
    by_cases h : c.ID = channelID
    · simp only [h, if_true]
      exact ih (some c)
    · simp only [h, if_false]
      exact ih start

theorem resolveGuildChannel_withOverwrites (f : Channel → List PermissionOverwrite)
    (s : State) (g : Option Guild) (channelID : String) (gg : Guild) (channel : Channel)
    (hres : resolveGuildChannel s g channelID = .ok (gg, channel)) :
    resolveGuildChannel (s.withOverwrites f) (g.map (Guild.withOverwrites f)) channelID =
      .ok (gg.withOverwrites f, channel.withOverwrites f) := by
  cases g with
  | none =>
    simp only [resolveGuildChannel] at hres
    cases hc : s.Channel channelID with
    | error err => simp [hc] at hres
    | ok c =>
      cases hg : s.Guild c.GuildID with
      | error err => simp [hc, hg] at hres
      | ok g1 =>
        simp only [hc, hg, Except.ok.injEq, Prod.mk.injEq] at hres
        obtain ⟨h1, h2⟩ := hres
        subst h1 h2
        have hg2 : s.Guild (Channel.withOverwrites f c).GuildID = .ok g1 := hg
        simp [resolveGuildChannel, State.withOverwrites, hc, hg2]
  | some g0 =>
    simp only [resolveGuildChannel] at hres
    cases hf : findChannel channelID g0.Channels none with
    | none => simp [hf] at hres
    | some c =>
      simp only [hf, Except.ok.injEq, Prod.mk.injEq] at hres
      obtain ⟨h1, h2⟩ := hres
      subst h1 h2
      have := findChannel_withOverwrites f channelID g0.Channels none
      simp only [Option.map_none', hf, Option.map_some'] at this
      simp [resolveGuildChannel, Guild.withOverwrites, this]

/-- C3: for a member who is not the owner and whose lookups succeed, if the
administrator bit is set in the permissions of the everyone role (the first role
whose id is the guild id) or of a guild role the member holds, `MemberPermissions`
returns with a nil error a bitmask that has every bit of `PermissionAll` (hence
every bit of `PermissionAllChannel`, whose bits are among those of `PermissionAll`),
and it returns the same bitmask when the overwrite list of every channel is
replaced by any other list. -/
theorem MemberPermissions_administrator (k : Permissions) (s : State) (g : Option Guild)
    (channelID memberID : String) (gg : Guild) (channel : Channel) (member : Member)
    (hres : resolveGuildChannel s g channelID = .ok (gg, channel))
    (hown : memberID ≠ gg.OwnerID)
    (hmem : s.GuildMember gg.ID memberID = .ok member)
    (hadmin : ∃ role ∈ gg.Roles, hasAdministrator k role.Permissions ∧
      (gg.Roles.find? (fun r => decide (r.ID = gg.ID)) = some role ∨ role.ID ∈ member.Roles)) :
    ∃ v, MemberPermissions k s g channelID memberID = (v, none) ∧
      (∀ i, k.PermissionAll.testBit i = true → v.testBit i = true) ∧
      ((∀ i, k.PermissionAllChannel.testBit i = true → k.PermissionAll.testBit i = true) →
        ∀ i, k.PermissionAllChannel.testBit i = true → v.testBit i = true) ∧
      ∀ f : Channel → List PermissionOverwrite,
        MemberPermissions k (s.withOverwrites f) (g.map (Guild.withOverwrites f))
          channelID memberID = (v, none) := by
  have hb := hasAdministrator_base k gg member hadmin
  have hall : ∀ i, k.PermissionAll.testBit i = true →
      (Int.lor (basePermissions gg member) k.PermissionAll).testBit i = true := by
    intro i hi
    rw [Int.testBit_lor, hi, Bool.or_true]
  refine ⟨Int.lor (basePermissions gg member) k.PermissionAll, ?_, hall,
    fun hsub i hi => hall i (hsub i hi), fun f => ?_⟩
  · rw [MemberPermissions_resolved k s g channelID memberID gg channel member hres hown hmem,
      computePermissions_eq, if_pos hb]
  · have hres2 := resolveGuildChannel_withOverwrites f s g channelID gg channel hres
    have hmem2 : (s.withOverwrites f).GuildMember (gg.withOverwrites f).ID memberID =
        .ok member := hmem
    have hown2 : memberID ≠ (gg.withOverwrites f).OwnerID := hown
    have hb2 : hasAdministrator k (basePermissions (gg.withOverwrites f) member) := hb
    rw [MemberPermissions_resolved k _ _ channelID memberID _ _ member hres2 hown2 hmem2,
      computePermissions_eq, if_pos hb2]
    rfl

theorem discordgo_allChannel_subset (i : Nat)
    (h : discordgo.PermissionAllChannel.testBit i = true) :
    discordgo.PermissionAll.testBit i = true := by
  have hland : Int.land discordgo.PermissionAll discordgo.PermissionAllChannel =
      discordgo.PermissionAllChannel := by decide
  have := congrArg (fun z => Int.testBit z i) hland
  simp only [Int.testBit_land, h, Bool.and_true] at this
  exact this

/-- C3, witness: member "8" of guild "1" holds role "30", which has the
administrator bit; with the library's constants the returned bitmask has every
bit of `PermissionAllChannel`. -/
theorem MemberPermissions_administrator_witness :
    ∃ v, MemberPermissions discordgo storeOne (some guildOne) "5" "8" = (v, none) ∧
      (∀ i, discordgo.PermissionAll.testBit i = true → v.testBit i = true) ∧
      (∀ i, discordgo.PermissionAllChannel.testBit i = true → v.testBit i = true) ∧
      ∀ f : Channel → List PermissionOverwrite,
        MemberPermissions discordgo (storeOne.withOverwrites f)
          ((some guildOne).map (Guild.withOverwrites f)) "5" "8" = (v, none) := by
  obtain ⟨v, h1, h2, h3, h4⟩ :=
    MemberPermissions_administrator discordgo storeOne (some guildOne) "5" "8" guildOne
      channelFive (memberOf "8") rfl (by decide) rfl
      ⟨{ ID := "30", Permissions := 8 }, by decide, by decide, Or.inr (by decide)⟩
  exact ⟨v, h1, h2, h3 discordgo_allChannel_subset, h4⟩

theorem land_lnot_ofNat (p d : Nat) :
    Int.land (Int.ofNat p) (Int.lnot (Int.ofNat d)) = Int.ofNat (p ^^^ (p &&& d)) := by
  show Int.ofNat (Nat.ldiff p d) = _
  refine congrArg Int.ofNat (Nat.eq_of_testBit_eq (fun i => ?_))
  rw [Nat.testBit_ldiff, Nat.testBit_xor, Nat.testBit_and]
  cases p.testBit i <;> cases d.testBit i <;> rfl

theorem applyOverwrite_ofNat (p d a : Nat) :
    applyOverwrite (Int.ofNat p) (Int.ofNat d) (Int.ofNat a) =
      Int.ofNat ((p ^^^ (p &&& d)) ||| a) := by
  unfold applyOverwrite
  rw [land_lnot_ofNat]
  rfl

theorem overwriteResult_channelFive :
    overwriteResult guildOne channelFive (memberOf "7") "7" = 8 := by
  have h1 : basePermissions guildOne (memberOf "7") = Int.ofNat 0 := by decide
  have h2 : everyoneOverwrite guildOne channelFive = (Int.ofNat 0, Int.ofNat 0) := by decide
  have h3 : roleDenies (memberOf "7") channelFive = Int.ofNat 0 := by decide
  have h4 : roleAllows (memberOf "7") channelFive = Int.ofNat 2056 := by decide
  have h5 : memberOverwrite channelFive "7" = (Int.ofNat 2050, Int.ofNat 0) := by decide
  unfold overwriteResult
  rw [h1, h2, h3, h4, h5]
  simp only [← applyOverwrite.eq_1, applyOverwrite_ofNat]
  decide

theorem overwriteResult_channelSix :
    overwriteResult guildOne channelSix (memberOf "7") "7" = 0 := by
  have h1 : basePermissions guildOne (memberOf "7") = Int.ofNat 0 := by decide
  have h2 : everyoneOverwrite guildOne channelSix = (Int.ofNat 0, Int.ofNat 0) := by decide
  have h3 : roleDenies (memberOf "7") channelSix = Int.ofNat 0 := by decide
  have h4 : roleAllows (memberOf "7") channelSix = Int.ofNat 2050 := by decide
  have h5 : memberOverwrite channelSix "7" = (Int.ofNat 2050, Int.ofNat 0) := by decide
  unfold overwriteResult
  rw [h1, h2, h3, h4, h5]
  simp only [← applyOverwrite.eq_1, applyOverwrite_ofNat]
  decide

theorem MemberPermissions_channelFive :
    MemberPermissions discordgo storeOne (some guildOne) "5" "7" = (334757081, none) := by
  rw [MemberPermissions_resolved discordgo storeOne (some guildOne) "5" "7" guildOne
      channelFive (memberOf "7") rfl (by decide) rfl,
    computePermissions_eq, if_neg (by decide), overwriteResult_channelFive]
  decide

/-- C4 (as stated, fails on the code): member "7" of guild "1" is not the owner and
has base permissions 0, without the administrator bit; in channel "5" the role
overwrite of the held role "20" allows bit 11 and the member overwrite of "7"
denies bit 11 and allows nothing; yet bit 11 is set in the bitmask
`MemberPermissions` returns, because the role overwrite also allows the
administrator bit and the last step then ORs in `PermissionAllChannel`. -/
theorem member_deny_undone_after_administrator :
    resolveGuildChannel storeOne (some guildOne) "5" = .ok (guildOne, channelFive) ∧
    "7" ≠ guildOne.OwnerID ∧
    storeOne.GuildMember guildOne.ID "7" = .ok (memberOf "7") ∧
    basePermissions guildOne (memberOf "7") = 0 ∧
    ¬ hasAdministrator discordgo (basePermissions guildOne (memberOf "7")) ∧
    (adminRoleOverwrite ∈ channelFive.PermissionOverwrites ∧
      adminRoleOverwrite.Type_ = "role" ∧ adminRoleOverwrite.ID ∈ (memberOf "7").Roles ∧
      adminRoleOverwrite.Allow.testBit 11 = true) ∧
    (channelFive.PermissionOverwrites.find?
        (fun o => decide (o.Type_ = "member" ∧ o.ID = "7")) = some denyMemberOverwrite ∧
      denyMemberOverwrite.Deny.testBit 11 = true ∧
      denyMemberOverwrite.Allow.testBit 11 = false) ∧
    MemberPermissions discordgo storeOne (some guildOne) "5" "7" = (334757081, none) ∧
    (MemberPermissions discordgo storeOne (some guildOne) "5" "7").1.testBit 11 = true := by
  refine ⟨rfl, by decide, rfl, by decide, by decide, by decide, by decide,
    MemberPermissions_channelFive, ?_⟩
  rw [MemberPermissions_channelFive]
  decide

/-- C4 (amended): for a member who is not the owner, whose lookups succeed and
whose base permissions lack the administrator bit, and for every bit `b`: if a role
overwrite of one of the member's roles allows `b` and the member overwrite (the
first overwrite of type "member" for the member id) denies `b` and does not allow
it, then `b` is not set in the bitmask `MemberPermissions` returns, provided the
bitmask reached after the member overwrite lacks the administrator bit or `b` is
not a bit of `PermissionAllChannel`. -/
theorem member_deny_overrides_role_allow (k : Permissions) (s : State) (g : Option Guild)
    (channelID memberID : String) (gg : Guild) (channel : Channel) (member : Member)
    (b : Nat) (om : PermissionOverwrite)
    (hres : resolveGuildChannel s g channelID = .ok (gg, channel))
    (hown : memberID ≠ gg.OwnerID)
    (hmem : s.GuildMember gg.ID memberID = .ok member)
    (hbase : ¬ hasAdministrator k (basePermissions gg member))
    (_hrole : ∃ o ∈ channel.PermissionOverwrites,
      o.Type_ = "role" ∧ o.ID ∈ member.Roles ∧ o.Allow.testBit b = true)
    (hom : channel.PermissionOverwrites.find?
      (fun o => decide (o.Type_ = "member" ∧ o.ID = memberID)) = some om)
    (hdeny : om.Deny.testBit b = true) (hallow : om.Allow.testBit b = false)
    (hlast : ¬ hasAdministrator k (overwriteResult gg channel member memberID) ∨
      k.PermissionAllChannel.testBit b = false) :
    (MemberPermissions k s g channelID memberID).2 = none ∧
    (MemberPermissions k s g channelID memberID).1.testBit b = false := by
  have hR : (overwriteResult gg channel member memberID).testBit b = false := by
    have hmo : memberOverwrite channel memberID = (om.Deny, om.Allow) := by
      unfold memberOverwrite
      rw [hom]
    unfold overwriteResult
    rw [hmo]
    simp [Int.testBit_lor, Int.testBit_land, Int.testBit_lnot, hdeny, hallow]
  rw [MemberPermissions_resolved k s g channelID memberID gg channel member hres hown hmem,
    computePermissions_eq, if_neg hbase]
  refine ⟨rfl, ?_⟩
  by_cases hadm : hasAdministrator k (overwriteResult gg channel member memberID)
  · rcases hlast with hl | hl
    · exact (hl hadm).elim
    · simp only [if_pos hadm, Int.testBit_lor, hR, hl, Bool.or_false]
  · simp only [if_neg hadm, hR]

/-- C4 (amended), witness: in channel "6" the role overwrite of role "20" allows
bit 11 without the administrator bit, the member overwrite of "7" denies it, and
bit 11 is not set in the result. -/
theorem member_deny_overrides_role_allow_witness :
    (MemberPermissions discordgo storeOne (some guildOne) "6" "7").2 = none ∧
    (MemberPermissions discordgo storeOne (some guildOne) "6" "7").1.testBit 11 = false :=
  member_deny_overrides_role_allow discordgo storeOne (some guildOne) "6" "7" guildOne
    channelSix (memberOf "7") 11 denyMemberOverwrite rfl (by decide) rfl (by decide)
    ⟨plainRoleOverwrite, by decide, by decide, by decide, by decide⟩ (by decide) (by decide)
    (by decide) (Or.inl (by rw [overwriteResult_channelSix]; decide))

/-! ### MemberPermissions: the error cases -/

theorem findChannel_none_of_absent (channelID : String) (channels : List Channel)
    (h : ∀ c ∈ channels, c.ID ≠ channelID) :
    findChannel channelID channels none = none := by
  induction channels with
  | nil => rfl
  | cons c rest ih =>
    have hc : ¬ c.ID = channelID := h c (List.mem_cons_self _ _)
    simp only [findChannel, hc, if_false]
    exact ih (fun d hd => h d (List.mem_cons_of_mem _ hd))

theorem findChannel_mem (channelID : String) (channels : List Channel) :
    ∀ (start : Option Channel) (channel : Channel),
      findChannel channelID channels start = some channel →
      start = some channel ∨ (channel ∈ channels ∧ channel.ID = channelID) := by
  induction channels with
  | nil => intro start channel h; exact Or.inl h
  | cons c rest ih =>
    intro start channel h
    simp only [findChannel] at h
    rcases ih _ channel h with h1 | ⟨h1, h2⟩
    · by_cases hc : c.ID = channelID
      · simp only [hc, if_true, Option.some.injEq] at h1
        exact Or.inr ⟨h1 ▸ List.mem_cons_self _ _, h1 ▸ hc⟩
      · simp only [hc, if_false] at h1
        exact Or.inl h1
    · exact Or.inr ⟨List.mem_cons_of_mem _ h1, h2⟩

/-- C11: `MemberPermissions` returns a non-nil error exactly in three cases, each
with permissions 0. (1) A guild is supplied and none of its channels has the
channel id: the error is `ErrNotFound`, for every store and every member id.
(2) No guild is supplied and the channel lookup, or after it the guild lookup,
fails with `e`: the error is `e`. (3) The guild and channel are resolved, the
member id is not the owner id and the member lookup fails with `e`: the error is
`e`. The error is nil exactly when the guild and channel are resolved and the
member is the owner or the member lookup succeeds. -/
theorem MemberPermissions_errors (k : Permissions) (s : State) (g : Option Guild)
    (channelID memberID : String) :
    (∀ g0, g = some g0 → (∀ c ∈ g0.Channels, c.ID ≠ channelID) →
      ∀ (anyStore : State) (anyMember : String),
        MemberPermissions k anyStore g channelID anyMember = (0, some Error.ErrNotFound)) ∧
    (∀ e, g = none → s.Channel channelID = .error e →
      MemberPermissions k s g channelID memberID = (0, some e)) ∧
    (∀ channel e, g = none → s.Channel channelID = .ok channel →
      s.Guild channel.GuildID = .error e →
      MemberPermissions k s g channelID memberID = (0, some e)) ∧
    (∀ gg channel e, resolveGuildChannel s g channelID = .ok (gg, channel) →
      memberID ≠ gg.OwnerID → s.GuildMember gg.ID memberID = .error e →
      MemberPermissions k s g channelID memberID = (0, some e)) ∧
    ((MemberPermissions k s g channelID memberID).2 = none ↔
      ∃ gg channel, resolveGuildChannel s g channelID = .ok (gg, channel) ∧
        (memberID = gg.OwnerID ∨ ∃ member, s.GuildMember gg.ID memberID = .ok member)) ∧
    ((∃ gg channel, resolveGuildChannel s g channelID = .ok (gg, channel)) ↔
      (∃ g0, g = some g0 ∧ ∃ c ∈ g0.Channels, c.ID = channelID) ∨
      (g = none ∧ ∃ channel gg, s.Channel channelID = .ok channel ∧
        s.Guild channel.GuildID = .ok gg)) := by
  refine ⟨?_, ?_, ?_, ?_, ?_, ?_⟩
  · intro g0 hg habs anyStore anyMember
    subst hg
    simp [MemberPermissions, resolveGuildChannel, findChannel_none_of_absent channelID _ habs]
  · intro e hg hch
    subst hg
    simp [MemberPermissions, resolveGuildChannel, hch]
  · intro channel e hg hch hgu
    subst hg
    simp [MemberPermissions, resolveGuildChannel, hch, hgu]
  · intro gg channel e hres hown hmem
    simp [MemberPermissions, hres, hown, hmem]
  · constructor
    · intro h
      unfold MemberPermissions at h
      cases hres : resolveGuildChannel s g channelID with
      | error err => simp [hres] at h
      | ok p =>
        obtain ⟨gg, channel⟩ := p
        refine ⟨gg, channel, rfl, ?_⟩
        by_cases hown : memberID = gg.OwnerID
        · exact Or.inl hown
        · cases hmem : s.GuildMember gg.ID memberID with
          | error err => simp [hres, hown, hmem] at h
          | ok member => exact Or.inr ⟨member, rfl⟩
    · rintro ⟨gg, channel, hres, hown | ⟨member, hmem⟩⟩
      · simp [MemberPermissions, hres, hown]
      · by_cases hown : memberID = gg.OwnerID
        · simp [MemberPermissions, hres, hown]
        · simp [MemberPermissions, hres, hown, hmem]
  · constructor
    · rintro ⟨gg, channel, hres⟩
      cases g with
      | none =>
        right
        simp only [resolveGuildChannel] at hres
        cases hc : s.Channel channelID with
        | error err => simp [hc] at hres
        | ok c =>
          cases hg : s.Guild c.GuildID with
          | error err => simp [hc, hg] at hres
          | ok g1 => exact ⟨rfl, c, g1, rfl, hg⟩
      | some g0 =>
        left
        simp only [resolveGuildChannel] at hres
        cases hf : findChannel channelID g0.Channels none with
        | none => simp [hf] at hres
        | some c =>
          rcases findChannel_mem channelID g0.Channels none c hf with h1 | ⟨h1, h2⟩
          · exact Option.noConfusion h1
          · exact ⟨g0, rfl, c, h1, h2⟩
    · rintro (⟨g0, hg, hc⟩ | ⟨hg, channel, gg, hch, hgu⟩)
      · obtain ⟨channel, h⟩ := resolveGuildChannel_ok s g channelID g0 (Or.inl ⟨hg, hc⟩)
        exact ⟨g0, channel, h⟩
      · obtain ⟨channel2, h⟩ :=
          resolveGuildChannel_ok s g channelID gg (Or.inr ⟨hg, channel, hch, hgu⟩)
        exact ⟨gg, channel2, h⟩

/-- C11, witness: with guild "1" supplied, channel "77" is not among its channels
and the result is `ErrNotFound` with permissions 0, whatever the store. -/
theorem MemberPermissions_errors_witness :
    MemberPermissions discordgo storeWithoutMembers (some guildOne) "77" "7" =
      (0, some Error.ErrNotFound) :=
  (MemberPermissions_errors discordgo storeOne (some guildOne) "77" "7").1 guildOne rfl
    (by decide) storeWithoutMembers "7"

/-! ### strconv.ParseUint on digit strings -/

theorem digitOf_of_isDigit (c : Char) (h : isDigit c) :
    digitOf c = some (digitValue c) ∧ digitValue c < 10 := by
  unfold isDigit at h
  refine ⟨by simp [digitOf, digitValue, h.1, h.2], ?_⟩
  unfold digitValue
  omega

theorem parseUintLoop_nondigit (c : Char) (rest : List Char) (n : Nat) (h : ¬ isDigit c) :
    parseUintLoop (c :: rest) n = (0, some NumError.ErrSyntax) := by
  unfold isDigit at h
  have hcases : digitOf c = none ∨ ∃ d, digitOf c = some d ∧ d ≥ 10 := by
    unfold digitOf
    rw [if_neg h]
    by_cases hl : 97 ≤ lower c.toNat ∧ lower c.toNat ≤ 122
    · rw [if_pos hl]
      exact Or.inr ⟨_, rfl, by omega⟩
    · rw [if_neg hl]
      exact Or.inl rfl
  rcases hcases with hnone | ⟨d, hsome, hd⟩
  · rw [parseUintLoop, hnone]
  · rw [parseUintLoop, hsome]
    simp only []
    rw [if_pos hd]

theorem decimalFrom_cons (n : Nat) (c : Char) (cs : List Char) :
    decimalFrom n (c :: cs) = decimalFrom (n * 10 + digitValue c) cs := rfl

theorem le_decimalFrom (cs : List Char) : ∀ n, n ≤ decimalFrom n cs := by
  induction cs with
  | nil => intro n; exact Nat.le_refl n
  | cons c cs ih =>
    intro n
    have := ih (n * 10 + digitValue c)
    show n ≤ decimalFrom (n * 10 + digitValue c) cs
    omega

theorem parseUintLoop_step (c : Char) (rest : List Char) (n : Nat) (h : isDigit c)
    (hle : n * 10 + digitValue c ≤ maxUint64) :
    parseUintLoop (c :: rest) n = parseUintLoop rest (n * 10 + digitValue c) := by
  obtain ⟨hd, hlt⟩ := digitOf_of_isDigit c h
  have hmax : maxUint64 = 18446744073709551615 := by decide
  rw [hmax] at hle
  have h1 : ¬ digitValue c ≥ 10 := by omega
  have h2 : ¬ n ≥ maxUint64 / 10 + 1 := by rw [hmax]; omega
  have h3 : (n * 10) % 2 ^ 64 = n * 10 := Nat.mod_eq_of_lt (by omega)
  have h4 : (n * 10 + digitValue c) % 2 ^ 64 = n * 10 + digitValue c :=
    Nat.mod_eq_of_lt (by omega)
  have h5 : ¬ (n * 10 + digitValue c < n * 10 ∨ n * 10 + digitValue c > maxUint64) := by
    rw [hmax]; omega
  rw [parseUintLoop, hd]
  simp only [h1, h2, h3, h4, h5, if_false]

theorem parseUintLoop_digits (ds : List Char) (rest : List Char) :
    ∀ n, (∀ c ∈ ds, isDigit c) → decimalFrom n ds ≤ maxUint64 →
      parseUintLoop (ds ++ rest) n = parseUintLoop rest (decimalFrom n ds) := by
  induction ds with
  | nil => intro n _ _; rfl
  | cons c cs ih =>
    intro n hd hle
    rw [decimalFrom_cons] at hle ⊢
    have hstep : n * 10 + digitValue c ≤ maxUint64 :=
      le_trans (le_decimalFrom cs _) hle
    rw [List.cons_append, parseUintLoop_step c _ n (hd c (List.mem_cons_self _ _)) hstep]
    exact ih _ (fun d hdm => hd d (List.mem_cons_of_mem _ hdm)) hle

theorem parseUintLoop_overflow (ds : List Char) (rest : List Char) :
    ∀ n, (∀ c ∈ ds, isDigit c) → n ≤ maxUint64 → maxUint64 < decimalFrom n ds →
      parseUintLoop (ds ++ rest) n = (maxUint64, some NumError.ErrRange) := by
  induction ds with
  | nil => intro n _ hn hgt; exact absurd hn (Nat.not_le_of_lt hgt)
  | cons c cs ih =>
    intro n hd hn hgt
    rw [decimalFrom_cons] at hgt
    have hc := hd c (List.mem_cons_self _ _)
    by_cases hstep : n * 10 + digitValue c ≤ maxUint64
    · rw [List.cons_append, parseUintLoop_step c _ n hc hstep]
      exact ih _ (fun d hdm => hd d (List.mem_cons_of_mem _ hdm)) hstep hgt
    · obtain ⟨hdig, hlt⟩ := digitOf_of_isDigit c hc
      have hmax : maxUint64 = 18446744073709551615 := by decide
      rw [hmax] at hstep hn
      have h1 : ¬ digitValue c ≥ 10 := by omega
      rw [List.cons_append, parseUintLoop, hdig]
      simp only [h1, if_false]
      by_cases h2 : n ≥ maxUint64 / 10 + 1
      · rw [if_pos h2]
      · rw [if_neg h2]
        rw [hmax] at h2
        have h3 : (n * 10) % 2 ^ 64 = n * 10 := Nat.mod_eq_of_lt (by omega)
        have h4 : (n * 10 + digitValue c) % 2 ^ 64 = n * 10 + digitValue c - 2 ^ 64 := by
          rw [Nat.mod_eq_sub_mod (by omega)]
          exact Nat.mod_eq_of_lt (by omega)
        have h5 : (n * 10 + digitValue c - 2 ^ 64 < n * 10 ∨
            n * 10 + digitValue c - 2 ^ 64 > maxUint64) := Or.inl (by omega)
        simp only [h3, h4, h5, if_true]

theorem ParseUint_of_decimal (s : String) (h : IsUint64Decimal s) :
    ParseUint s = (decimalValue s, none) := by
  obtain ⟨hne, hd, hle⟩ := h
  unfold ParseUint
  rw [if_neg hne]
  have := parseUintLoop_digits s.toList [] 0 hd hle
  rw [List.append_nil] at this
  rw [this]
  rfl

theorem parseID_of_decimal (s : String) (h : IsUint64Decimal s) :
    parseID s = decimalValue s := by
  unfold parseID
  rw [ParseUint_of_decimal s h]

theorem ParseUint_of_overflow (s : String) (hd : allDigits s)
    (hgt : maxUint64 < decimalValue s) :
    ParseUint s = (maxUint64, some NumError.ErrRange) := by
  have hne : s.toList ≠ [] := by
    intro h
    unfold decimalValue at hgt
    rw [h] at hgt
    exact Nat.not_lt_zero _ hgt
  unfold ParseUint
  rw [if_neg hne]
  have := parseUintLoop_overflow s.toList [] 0 hd (Nat.zero_le _) hgt
  rw [List.append_nil] at this
  exact this

/-! ### Ids that do not parse -/

theorem sameKeyComponent_of_parseID (a b : String) (h : parseID a = parseID b) :
    sameKeyComponent a b := by
  unfold sameKeyComponent KeyGuild KeyChannel KeyPresence KeyGuildMembersIteratorPrefix
    KeyChannelMessageIteratorPrefix KeyVoiceStateIteratorPrefix KeyGuildMember
    KeyChannelMessage KeyVoiceState
  rw [h]
  exact ⟨rfl, rfl, rfl, rfl, rfl, rfl, fun _ => ⟨rfl, rfl, rfl, rfl, rfl, rfl⟩⟩

theorem parseUintLoop_syntax (cs : List Char) :
    ∀ n, (¬ ∀ c ∈ cs, isDigit c) → decimalFrom n (leadingDigits cs) ≤ maxUint64 →
      parseUintLoop cs n = (0, some NumError.ErrSyntax) := by
  induction cs with
  | nil => intro n h _; exact (h (fun c hc => absurd hc (List.not_mem_nil c))).elim
  | cons c cs ih =>
    intro n hnot hle
    by_cases hc : isDigit c
    · have hld : leadingDigits (c :: cs) = c :: leadingDigits cs := by
        simp [leadingDigits, List.takeWhile_cons, hc]
      rw [hld, decimalFrom_cons] at hle
      rw [parseUintLoop_step c cs n hc (le_trans (le_decimalFrom _ _) hle)]
      refine ih _ (fun hall => hnot (fun d hd => ?_)) hle
      rcases List.mem_cons.1 hd with h1 | h1
      · exact h1 ▸ hc
      · exact hall d h1
    · exact parseUintLoop_nondigit c cs n hc

/-- C12 (as stated, fails on the code): the id "99999999999999999999x" is not
numeric (it holds the character x), yet its digits overflow before the x is
reached, `ParseUint` stops there with the saturated value, and the id component is
eight bytes 255, not eight zero bytes; the key differs from the key of "0". -/
theorem non_numeric_id_not_zero :
    nonNumeric "99999999999999999999x" ∧
    ParseUint "99999999999999999999x" = (maxUint64, some NumError.ErrRange) ∧
    putUint64 (parseID "99999999999999999999x") = [255, 255, 255, 255, 255, 255, 255, 255] ∧
    KeyGuild "99999999999999999999x" ≠ KeyGuild "0" ∧
    KeyChannelMessage "7" "99999999999999999999x" ≠ KeyChannelMessage "7" "0" := by
  refine ⟨Or.inr ?_, by decide, by decide, by decide, by decide⟩
  unfold allDigits
  decide

theorem ParseUint_of_leading_overflow (t : String)
    (hgt : maxUint64 < decimalFrom 0 (leadingDigits t.toList)) :
    ParseUint t = (maxUint64, some NumError.ErrRange) := by
  have hsplit : leadingDigits t.toList ++
      t.toList.dropWhile (fun c => decide (isDigit c)) = t.toList :=
    List.takeWhile_append_dropWhile _ _
  have hdigits : ∀ c ∈ leadingDigits t.toList, isDigit c := by
    intro c hc
    have := List.mem_takeWhile_imp hc
    simpa using this
  have hne : t.toList ≠ [] := by
    intro h
    rw [h] at hgt
    exact Nat.not_lt_zero _ hgt
  unfold ParseUint
  rw [if_neg hne]
  have := parseUintLoop_overflow (leadingDigits t.toList)
    (t.toList.dropWhile (fun c => decide (isDigit c))) 0 hdigits (Nat.zero_le _) hgt
  rw [hsplit] at this
  exact this

/-- C12 (amended): for every non-numeric id string (empty, or with a character
other than the digits 0 to 9) whose digits before the first other character
denote at most `2 ^ 64 - 1`, `ParseUint` gives 0 with a syntax error, which the key
functions drop: the id component is eight zero bytes and every key function
gives the same key as with "0" in that position. And for every string whose
leading digits denote more than `2 ^ 64 - 1`, `ParseUint` stops at the overflow
with the saturated value and the id component is eight bytes 255. -/
theorem non_numeric_id_is_zero (s : String) (hnon : nonNumeric s)
    (hlead : decimalFrom 0 (leadingDigits s.toList) ≤ maxUint64) :
    ParseUint s = (0, some NumError.ErrSyntax) ∧
    putUint64 (parseID s) = [0, 0, 0, 0, 0, 0, 0, 0] ∧
    sameKeyComponent s "0" ∧
    ∀ t : String, maxUint64 < decimalFrom 0 (leadingDigits t.toList) →
      ParseUint t = (maxUint64, some NumError.ErrRange) ∧
      putUint64 (parseID t) = [255, 255, 255, 255, 255, 255, 255, 255] := by
  have hparse : ParseUint s = (0, some NumError.ErrSyntax) := by
    unfold ParseUint
    by_cases he : s.toList = []
    · rw [if_pos he]
    · rw [if_neg he]
      rcases hnon with h | h
      · exact (he h).elim
      · exact parseUintLoop_syntax s.toList 0 h hlead
  have hid : parseID s = 0 := by unfold parseID; rw [hparse]
  refine ⟨hparse, by rw [hid]; decide, ?_, fun t ht => ?_⟩
  · exact sameKeyComponent_of_parseID s "0" (by rw [hid]; decide)
  · have hp := ParseUint_of_leading_overflow t ht
    refine ⟨hp, ?_⟩
    have hidt : parseID t = maxUint64 := by unfold parseID; rw [hp]
    rw [hidt]
    decide

/-- C12 (amended), witness: the signed id "-1". -/
theorem non_numeric_id_is_zero_witness :
    ParseUint "-1" = (0, some NumError.ErrSyntax) ∧
    putUint64 (parseID "-1") = [0, 0, 0, 0, 0, 0, 0, 0] ∧
    sameKeyComponent "-1" "0" :=
  ⟨(non_numeric_id_is_zero "-1" (Or.inr (by unfold allDigits; decide)) (by decide)).1,
    (non_numeric_id_is_zero "-1" (Or.inr (by unfold allDigits; decide)) (by decide)).2.1,
    (non_numeric_id_is_zero "-1" (Or.inr (by unfold allDigits; decide)) (by decide)).2.2.1⟩

/-! ### Ids out of range -/

/-- C20: for every string of decimal digits whose value exceeds `2 ^ 64 - 1`,
`ParseUint` gives the saturated value `2 ^ 64 - 1` with a range error, which the
key functions drop: the id component is eight bytes 255, every key function
gives the same key as with "18446744073709551615" in that position, and any two
such ids give the same keys. -/
theorem out_of_range_id_saturates (s : String) (hd : allDigits s)
    (hgt : maxUint64 < decimalValue s) :
    ParseUint s = (maxUint64, some NumError.ErrRange) ∧
    putUint64 (parseID s) = [255, 255, 255, 255, 255, 255, 255, 255] ∧
    sameKeyComponent s "18446744073709551615" ∧
    ∀ t : String, allDigits t → maxUint64 < decimalValue t → sameKeyComponent s t := by
  have hparse := ParseUint_of_overflow s hd hgt
  have hid : parseID s = maxUint64 := by unfold parseID; rw [hparse]
  refine ⟨hparse, by rw [hid]; decide, ?_, fun t htd htgt => ?_⟩
  · exact sameKeyComponent_of_parseID s _ (by rw [hid]; decide)
  · refine sameKeyComponent_of_parseID s t ?_
    have : parseID t = maxUint64 := by unfold parseID; rw [ParseUint_of_overflow t htd htgt]
    rw [hid, this]

/-- C20, witness: the ids `2 ^ 64` and 99999999999999999999 are different numbers
out of range and give the same guild key. -/
theorem out_of_range_ids_collide :
    KeyGuild "18446744073709551616" = KeyGuild "99999999999999999999" :=
  ((out_of_range_id_saturates "18446744073709551616" (by unfold allDigits; decide)
    (by decide)).2.2.2 "99999999999999999999" (by unfold allDigits; decide) (by decide)).1

/-! ### Keys identify entities -/

theorem putUint64_injective (a b : Nat) (ha : a < 18446744073709551616)
    (hb : b < 18446744073709551616) (h : putUint64 a = putUint64 b) : a = b := by
  unfold putUint64 at h
  simp only [List.cons.injEq, Nat.shiftRight_eq_div_pow, and_true] at h
  obtain ⟨h0, h1, h2, h3, h4, h5, h6, h7⟩ := h
  norm_num at h1 h2 h3 h4 h5 h6 h7
  omega

theorem decimalValue_lt (s : String) (h : IsUint64Decimal s) :
    decimalValue s < 18446744073709551616 := by
  have h1 := h.2.2
  have hmax : maxUint64 = 18446744073709551615 := by decide
  rw [hmax] at h1
  omega

theorem putUint64_parseID_eq_iff (a b : String) (ha : IsUint64Decimal a)
    (hb : IsUint64Decimal b) :
    putUint64 (parseID a) = putUint64 (parseID b) ↔ decimalValue a = decimalValue b := by
  rw [parseID_of_decimal a ha, parseID_of_decimal b hb]
  constructor
  · exact putUint64_injective _ _ (decimalValue_lt a ha) (decimalValue_lt b hb)
  · intro h; rw [h]

theorem putUint64_append_eq_iff (a b c d : Nat) :
    putUint64 a ++ putUint64 b = putUint64 c ++ putUint64 d ↔
      putUint64 a = putUint64 c ∧ putUint64 b = putUint64 d := by
  constructor
  · intro h
    exact List.append_inj h rfl
  · rintro ⟨h1, h2⟩; rw [h1, h2]

theorem Entity.key_head (e : Entity) : e.key.head? = some e.kind.tag := by
  cases e <;> rfl

theorem KeyKind.tag_injective (k1 k2 : KeyKind) (h : k1.tag = k2.tag) : k1 = k2 := by
  cases k1 <;> cases k2 <;> first | rfl | exact absurd h (by decide)

theorem Entity.kind_eq_of_key_eq (e1 e2 : Entity) (h : e1.key = e2.key) : e1.kind = e2.kind := by
  apply KeyKind.tag_injective
  have h1 := Entity.key_head e1
  rw [h, Entity.key_head e2] at h1
  exact (Option.some.inj h1).symm

/-- C13: every entity key has the fixed length of its kind (9, 17 or 1 bytes) and
starts with the tag byte of its kind; the seven tag bytes are pairwise distinct;
and for ids that are decimal strings of unsigned 64-bit integers, two entity keys
are equal if and only if the entities are of the same kind and their ids are
numerically equal, position by position. -/
theorem entity_keys_identify (e1 e2 : Entity) :
    (e1.key.length = e1.kind.keyLength ∧ e1.key.head? = some e1.kind.tag) ∧
    (∀ k1 k2 : KeyKind, k1.tag = k2.tag → k1 = k2) ∧
    ((∀ s ∈ e1.ids, IsUint64Decimal s) → (∀ s ∈ e2.ids, IsUint64Decimal s) →
      (e1.key = e2.key ↔
        e1.kind = e2.kind ∧ e1.ids.map decimalValue = e2.ids.map decimalValue)) := by
  refine ⟨⟨by cases e1 <;> rfl, Entity.key_head e1⟩, KeyKind.tag_injective, ?_⟩
  intro hd1 hd2
  constructor
  · intro hkey
    have hkind := Entity.kind_eq_of_key_eq e1 e2 hkey
    refine ⟨hkind, ?_⟩
    cases e1 <;> cases e2 <;> first | exact KeyKind.noConfusion hkind | skip
    all_goals simp only [Entity.ids, List.mem_cons, List.mem_singleton, List.not_mem_nil,
      or_false, forall_eq_or_imp, forall_eq] at hd1 hd2
    all_goals simp only [Entity.key, KeyGuild, KeyGuildMember, KeyChannel, KeyChannelMessage,
      KeyPresence, KeyVoiceState, List.cons.injEq, true_and, putUint64_append_eq_iff] at hkey
    · simp only [Entity.ids, List.map_cons, List.map_nil]
      rw [(putUint64_parseID_eq_iff _ _ hd1 hd2).1 hkey]
    · simp only [Entity.ids, List.map_cons, List.map_nil]
      rw [(putUint64_parseID_eq_iff _ _ hd1.1 hd2.1).1 hkey.1,
        (putUint64_parseID_eq_iff _ _ hd1.2 hd2.2).1 hkey.2]
    · simp only [Entity.ids, List.map_cons, List.map_nil]
      rw [(putUint64_parseID_eq_iff _ _ hd1 hd2).1 hkey]
    · simp only [Entity.ids, List.map_cons, List.map_nil]
      rw [(putUint64_parseID_eq_iff _ _ hd1.1 hd2.1).1 hkey.1,
        (putUint64_parseID_eq_iff _ _ hd1.2 hd2.2).1 hkey.2]
    · simp only [Entity.ids, List.map_cons, List.map_nil]
      rw [(putUint64_parseID_eq_iff _ _ hd1 hd2).1 hkey]
    · simp only [Entity.ids, List.map_cons, List.map_nil]
      rw [(putUint64_parseID_eq_iff _ _ hd1.1 hd2.1).1 hkey.1,
        (putUint64_parseID_eq_iff _ _ hd1.2 hd2.2).1 hkey.2]
    · rfl
  · rintro ⟨hkind, hids⟩
    cases e1 <;> cases e2 <;> first | exact KeyKind.noConfusion hkind | skip
    all_goals simp only [Entity.ids, List.mem_cons, List.mem_singleton, List.not_mem_nil,
      or_false, forall_eq_or_imp, forall_eq] at hd1 hd2
    all_goals simp only [Entity.ids, List.map_cons, List.map_nil, List.cons.injEq,
      and_true] at hids
    all_goals simp only [Entity.key, KeyGuild, KeyGuildMember, KeyChannel, KeyChannelMessage,
      KeyPresence, KeyVoiceState, List.cons.injEq, true_and, putUint64_append_eq_iff]
    · exact (putUint64_parseID_eq_iff _ _ hd1 hd2).2 hids
    · exact ⟨(putUint64_parseID_eq_iff _ _ hd1.1 hd2.1).2 hids.1,
        (putUint64_parseID_eq_iff _ _ hd1.2 hd2.2).2 hids.2⟩
    · exact (putUint64_parseID_eq_iff _ _ hd1 hd2).2 hids
    · exact ⟨(putUint64_parseID_eq_iff _ _ hd1.1 hd2.1).2 hids.1,
        (putUint64_parseID_eq_iff _ _ hd1.2 hd2.2).2 hids.2⟩
    · exact (putUint64_parseID_eq_iff _ _ hd1 hd2).2 hids
    · exact ⟨(putUint64_parseID_eq_iff _ _ hd1.1 hd2.1).2 hids.1,
        (putUint64_parseID_eq_iff _ _ hd1.2 hd2.2).2 hids.2⟩

/-- C13, witness: the member keys of ("7", "42") and ("007", "42") are equal, the
ids being numerically equal. -/
theorem entity_keys_identify_witness :
    (Entity.member "7" "42").key = (Entity.member "007" "42").key ↔
      (Entity.member "7" "42").kind = (Entity.member "007" "42").kind ∧
      (Entity.member "7" "42").ids.map decimalValue =
        (Entity.member "007" "42").ids.map decimalValue :=
  (entity_keys_identify (Entity.member "7" "42") (Entity.member "007" "42")).2.2
    (by unfold IsUint64Decimal allDigits; decide) (by unfold IsUint64Decimal allDigits; decide)

/-! ### Iterator prefixes -/

theorem tagged_prefix_iff (t1 t2 a b : Nat) (tail : List Nat) :
    (t1 :: putUint64 a) <+: (t2 :: (putUint64 b ++ tail)) ↔
      t1 = t2 ∧ putUint64 a = putUint64 b := by
  rw [List.cons_prefix_cons]
  constructor
  · rintro ⟨ht, hp⟩
    refine ⟨ht, ?_⟩
    have h2 : putUint64 b <+: putUint64 b ++ tail := List.prefix_append _ _
    exact (List.prefix_of_prefix_length_le hp h2 (Nat.le_refl 8)).eq_of_length rfl
  · rintro ⟨ht, hp⟩
    exact ⟨ht, hp ▸ List.prefix_append _ _⟩

theorem tagged_prefix_iff_nil (t1 t2 a b : Nat) :
    (t1 :: putUint64 a) <+: (t2 :: putUint64 b) ↔ t1 = t2 ∧ putUint64 a = putUint64 b := by
  have := tagged_prefix_iff t1 t2 a b []
  rwa [List.append_nil] at this

theorem not_prefix_selfUser (t a : Nat) : ¬ (t :: putUint64 a) <+: KeySelfUser := by
  intro h
  have := h.length_le
  simp [putUint64, KeySelfUser] at this

theorem prefix_key_iff (t v : Nat) (e : Entity) :
    (t :: putUint64 v) <+: e.key ↔
      e.kind.tag = t ∧ ∃ q, e.ids.head? = some q ∧ putUint64 (parseID q) = putUint64 v := by
  cases e with
  | selfUser =>
    simp only [Entity.key, Entity.ids, List.head?_nil]
    constructor
    · intro h; exact (not_prefix_selfUser t v h).elim
    · rintro ⟨_, q, hq, _⟩; exact Option.noConfusion hq
  | guild g =>
    simp only [Entity.key, KeyGuild, tagged_prefix_iff_nil, Entity.kind, KeyKind.tag,
      Entity.ids, List.head?_cons, Option.some.injEq, exists_eq_left']
    constructor <;> rintro ⟨h1, h2⟩ <;> exact ⟨h1.symm, h2.symm⟩
  | channel g =>
    simp only [Entity.key, KeyChannel, tagged_prefix_iff_nil, Entity.kind, KeyKind.tag,
      Entity.ids, List.head?_cons, Option.some.injEq, exists_eq_left']
    constructor <;> rintro ⟨h1, h2⟩ <;> exact ⟨h1.symm, h2.symm⟩
  | presence g =>
    simp only [Entity.key, KeyPresence, tagged_prefix_iff_nil, Entity.kind, KeyKind.tag,
      Entity.ids, List.head?_cons, Option.some.injEq, exists_eq_left']
    constructor <;> rintro ⟨h1, h2⟩ <;> exact ⟨h1.symm, h2.symm⟩
  | member g u =>
    simp only [Entity.key, KeyGuildMember, tagged_prefix_iff, Entity.kind, KeyKind.tag,
      Entity.ids, List.head?_cons, Option.some.injEq, exists_eq_left']
    constructor <;> rintro ⟨h1, h2⟩ <;> exact ⟨h1.symm, h2.symm⟩
  | channelMessage g u =>
    simp only [Entity.key, KeyChannelMessage, tagged_prefix_iff, Entity.kind, KeyKind.tag,
      Entity.ids, List.head?_cons, Option.some.injEq, exists_eq_left']
    constructor <;> rintro ⟨h1, h2⟩ <;> exact ⟨h1.symm, h2.symm⟩
  | voiceState g u =>
    simp only [Entity.key, KeyVoiceState, tagged_prefix_iff, Entity.kind, KeyKind.tag,
      Entity.ids, List.head?_cons, Option.some.injEq, exists_eq_left']
    constructor <;> rintro ⟨h1, h2⟩ <;> exact ⟨h1.symm, h2.symm⟩

theorem prefix_children_iff (kind : KeyKind) (p : String) (hp : IsUint64Decimal p)
    (e : Entity) (he : ∀ s ∈ e.ids, IsUint64Decimal s) :
    (kind.tag :: putUint64 (parseID p)) <+: e.key ↔
      e.kind = kind ∧ ∃ q, e.ids.head? = some q ∧ decimalValue q = decimalValue p := by
  rw [prefix_key_iff]
  constructor
  · rintro ⟨ht, q, hq, hv⟩
    have hqd : IsUint64Decimal q := he q (List.mem_of_mem_head? hq)
    exact ⟨KeyKind.tag_injective _ _ ht, q, hq, (putUint64_parseID_eq_iff q p hqd hp).1 hv⟩
  · rintro ⟨hk, q, hq, hv⟩
    have hqd : IsUint64Decimal q := he q (List.mem_of_mem_head? hq)
    exact ⟨by rw [hk], q, hq, (putUint64_parseID_eq_iff q p hqd hp).2 hv⟩

/-- C14: each iterator prefix of a parent id is the first 9 bytes of every
composite key of its kind with that parent; and, ids being decimal strings of
unsigned 64-bit integers, the key of an entity starts with the prefix exactly
when the entity is of that composite kind and its parent id is numerically equal
to the prefix's: no key of the kind with another parent and no key of another
kind starts with it. -/
theorem iterator_prefix_selects_children (p : String) (hp : IsUint64Decimal p) :
    (∀ c : String,
      KeyGuildMembersIteratorPrefix p = (KeyGuildMember p c).take 9 ∧
      KeyChannelMessageIteratorPrefix p = (KeyChannelMessage p c).take 9 ∧
      KeyVoiceStateIteratorPrefix p = (KeyVoiceState p c).take 9) ∧
    ∀ e : Entity, (∀ s ∈ e.ids, IsUint64Decimal s) →
      (KeyGuildMembersIteratorPrefix p <+: e.key ↔
        ∃ q c, e = Entity.member q c ∧ decimalValue q = decimalValue p) ∧
      (KeyChannelMessageIteratorPrefix p <+: e.key ↔
        ∃ q c, e = Entity.channelMessage q c ∧ decimalValue q = decimalValue p) ∧
      (KeyVoiceStateIteratorPrefix p <+: e.key ↔
        ∃ q c, e = Entity.voiceState q c ∧ decimalValue q = decimalValue p) := by
  refine ⟨fun c => ⟨rfl, rfl, rfl⟩, fun e he => ⟨?_, ?_, ?_⟩⟩
  · have := prefix_children_iff KeyKind.member p hp e he
    rw [show KeyGuildMembersIteratorPrefix p = KeyKind.member.tag :: putUint64 (parseID p)
      from rfl, this]
    constructor
    · rintro ⟨hk, q, hq, hv⟩
      cases e <;> first | exact KeyKind.noConfusion hk | skip
      simp only [Entity.ids, List.head?_cons, Option.some.injEq] at hq
      exact ⟨_, _, by rw [hq], hv⟩
    · rintro ⟨q, c, rfl, hv⟩
      exact ⟨rfl, q, rfl, hv⟩
  · have := prefix_children_iff KeyKind.channelMessage p hp e he
    rw [show KeyChannelMessageIteratorPrefix p =
      KeyKind.channelMessage.tag :: putUint64 (parseID p) from rfl, this]
    constructor
    · rintro ⟨hk, q, hq, hv⟩
      cases e <;> first | exact KeyKind.noConfusion hk | skip
      simp only [Entity.ids, List.head?_cons, Option.some.injEq] at hq
      exact ⟨_, _, by rw [hq], hv⟩
    · rintro ⟨q, c, rfl, hv⟩
      exact ⟨rfl, q, rfl, hv⟩
  · have := prefix_children_iff KeyKind.voiceState p hp e he
    rw [show KeyVoiceStateIteratorPrefix p = KeyKind.voiceState.tag :: putUint64 (parseID p)
      from rfl, this]
    constructor
    · rintro ⟨hk, q, hq, hv⟩
      cases e <;> first | exact KeyKind.noConfusion hk | skip
      simp only [Entity.ids, List.head?_cons, Option.some.injEq] at hq
      exact ⟨_, _, by rw [hq], hv⟩
    · rintro ⟨q, c, rfl, hv⟩
      exact ⟨rfl, q, rfl, hv⟩

/-- C14, witness: the message prefix of channel "7" is the first 9 bytes of the
key of message "42" in it, and among all keys with decimal ids it is a prefix of
exactly the message keys whose channel id is numerically 7. -/
theorem iterator_prefix_selects_children_witness :
    KeyChannelMessageIteratorPrefix "7" = (KeyChannelMessage "7" "42").take 9 ∧
    ∀ e : Entity, (∀ s ∈ e.ids, IsUint64Decimal s) →
      (KeyChannelMessageIteratorPrefix "7" <+: e.key ↔
        ∃ q c, e = Entity.channelMessage q c ∧ decimalValue q = decimalValue "7") :=
  ⟨((iterator_prefix_selects_children "7" (by unfold IsUint64Decimal allDigits; decide)).1
      "42").2.1,
    fun e he => ((iterator_prefix_selects_children "7"
      (by unfold IsUint64Decimal allDigits; decide)).2 e he).2.1⟩

/-! ### SelfUser -/

/-- C16: on a well-formed memory `SelfUser` returns nil exactly when no self user
is held, and then leaves the memory as it is. When a user `u` is held at pointer
`p`, it returns a pointer `q` to a newly allocated struct equal to `u`; the call
changes neither `memoryState.User` nor any struct allocated before; and after any
assignment through `q` the held pointer still points to `u` and a later
`SelfUser` call again returns a new struct equal to `u`. -/
theorem SelfUser_returns_copy (m : Memory) (hwf : m.wellFormed) :
    (m.User = none → SelfUser m = some (none, m)) ∧
    (∀ q m1, SelfUser m = some (q, m1) → (q = none ↔ m.User = none)) ∧
    (∀ p, m.User = some p →
      ∃ u q m1, m.load p = some u ∧ SelfUser m = some (some q, m1) ∧
        q ≠ p ∧ m.cells.length ≤ q ∧ m1.load q = some u ∧
        m1.User = m.User ∧ (∀ a, a < m.cells.length → m1.load a = m.load a) ∧
        ∀ changed : Dbstate.User,
          (m1.store q changed).User = some p ∧
          (m1.store q changed).load p = some u ∧
          ∃ q2 m2, SelfUser (m1.store q changed) = some (some q2, m2) ∧
            q2 ≠ q ∧ m2.load q2 = some u) := by
  refine ⟨?_, ?_, ?_⟩
  · intro h
    simp [SelfUser, h]
  · intro q m1 h
    unfold SelfUser at h
    cases hu : m.User with
    | none =>
      simp only [hu, Option.some.injEq, Prod.mk.injEq] at h
      simp [← h.1]
    | some p =>
      simp only [hu] at h
      cases hl : m.load p with
      | none => simp [hl] at h
      | some u =>
        simp only [hl, Option.some.injEq, Prod.mk.injEq] at h
        simp [← h.1]
  · intro p hp
    have hlt : p < m.cells.length := hwf p hp
    have hload : m.load p = some (m.cells[p]) := List.getElem?_eq_getElem hlt
    have hp1 : (m.cells ++ [m.cells[p]])[p]? = some (m.cells[p]) := by
      rw [List.getElem?_append_left hlt]
      exact List.getElem?_eq_getElem hlt
    refine ⟨m.cells[p], m.cells.length,
      { m with cells := m.cells ++ [m.cells[p]] }, hload, ?_, ?_, Nat.le_refl _, ?_,
      rfl, ?_, ?_⟩
    · simp only [SelfUser, hp, hload]
    · omega
    · simp [Memory.load]
    · intro a ha
      simp only [Memory.load]
      rw [List.getElem?_append_left ha]
    · intro changed
      have hstore : ((m.cells ++ [m.cells[p]]).set m.cells.length changed)[p]? =
          some (m.cells[p]) := by
        rw [List.getElem?_set_ne (by omega)]
        exact hp1
      refine ⟨hp, hstore, ?_⟩
      refine ⟨((m.cells ++ [m.cells[p]]).set m.cells.length changed).length,
        { cells := (m.cells ++ [m.cells[p]]).set m.cells.length changed ++ [m.cells[p]],
          User := m.User }, ?_, ?_, ?_⟩
      · simp only [SelfUser, Memory.store, hp, Memory.load, hstore]
      · simp
      · show ((m.cells ++ [m.cells[p]]).set m.cells.length changed ++ [m.cells[p]])[
            ((m.cells ++ [m.cells[p]]).set m.cells.length changed).length]? = some m.cells[p]
        rw [List.getElem?_append_right (Nat.le_refl _)]
        simp

/-- C16, witness: a memory whose one struct is the held user "bot". -/
theorem SelfUser_returns_copy_witness :
    ∃ u q m1, Memory.load { cells := [userNamed "bot"], User := some 0 } 0 = some u ∧
      SelfUser { cells := [userNamed "bot"], User := some 0 } = some (some q, m1) ∧
      q ≠ 0 ∧ 1 ≤ q ∧ m1.load q = some u ∧ m1.User = some 0 ∧
      (∀ a, a < 1 → m1.load a = Memory.load { cells := [userNamed "bot"], User := some 0 } a) ∧
      ∀ changed : Dbstate.User,
        (m1.store q changed).User = some 0 ∧
        (m1.store q changed).load 0 = some u ∧
        ∃ q2 m2, SelfUser (m1.store q changed) = some (some q2, m2) ∧
          q2 ≠ q ∧ m2.load q2 = some u :=
  (SelfUser_returns_copy { cells := [userNamed "bot"], User := some 0 }
    (by intro p hp; simp only [Option.some.injEq] at hp; subst hp; decide)).2.2 0 rfl

/-! ### LastChannelMessages: early stop -/

theorem iterateEntriesTraced_fst {σ : Type} (f : σ → Nat → Message → σ × Bool)
    (entries : List (Nat × Message)) :
    ∀ st, (iterateEntriesTraced f entries st).1 = iterateEntries f entries st := by
  induction entries with
  | nil => intro st; rfl
  | cons e rest ih =>
    intro st
    obtain ⟨flags, m⟩ := e
    rcases hf : f st flags m with ⟨st1, _ | _⟩
    · simp [iterateEntriesTraced, iterateEntries, hf]
    · simp [iterateEntriesTraced, iterateEntries, hf, ih]

theorem passingEntries_cons_skip (includeDeleted : Bool) (flags : Nat) (m : Message)
    (rest : List (Nat × Message)) (hp : (includeDeleted || !flagDeleted flags) = false) :
    passingEntries includeDeleted ((flags, m) :: rest) = passingEntries includeDeleted rest := by
  simp [passingEntries, List.filter_cons, hp]

theorem passingEntries_cons_keep (includeDeleted : Bool) (flags : Nat) (m : Message)
    (rest : List (Nat × Message)) (hp : (includeDeleted || !flagDeleted flags) = true) :
    passingEntries includeDeleted ((flags, m) :: rest) =
      (⟨m, flagDeleted flags⟩ : MessageWithMeta) :: passingEntries includeDeleted rest := by
  simp [passingEntries, List.filter_cons, hp]

theorem passingEntries_nil (includeDeleted : Bool) : passingEntries includeDeleted [] = [] := rfl

theorem traced_results (n : Int) (includeDeleted : Bool) (entries : List (Nat × Message)) :
    ∀ (acc : List MessageWithMeta) (r : Nat), 0 < r → (acc.length : Int) + r = n →
      ((passingEntries includeDeleted entries).length < r →
        (iterateEntriesTraced (lastChannelMessagesCallback n includeDeleted) entries acc).2 =
          List.replicate entries.length true) ∧
      (r ≤ (passingEntries includeDeleted entries).length →
        ∃ v, v < entries.length ∧
          (iterateEntriesTraced (lastChannelMessagesCallback n includeDeleted) entries acc).2 =
            List.replicate v true ++ [false] ∧
          (passingEntries includeDeleted (entries.take (v + 1))).length = r ∧
          ∀ w, w ≤ v → (passingEntries includeDeleted (entries.take w)).length < r) := by
  induction entries with
  | nil =>
    intro acc r hr _
    refine ⟨fun _ => rfl, fun h => ?_⟩
    rw [passingEntries_nil] at h
    simp at h
    omega
  | cons e rest ih =>
    intro acc r hr hn
    obtain ⟨flags, m⟩ := e
    cases hp : (includeDeleted || !flagDeleted flags)
    · -- the entry is skipped
      have hcb := lastChannelMessagesCallback_skip n includeDeleted acc flags m hp
      have htr : (iterateEntriesTraced (lastChannelMessagesCallback n includeDeleted)
          ((flags, m) :: rest) acc).2 =
          true :: (iterateEntriesTraced (lastChannelMessagesCallback n includeDeleted)
            rest acc).2 := by
        simp [iterateEntriesTraced, hcb]
      obtain ⟨ih1, ih2⟩ := ih acc r hr hn
      rw [htr, passingEntries_cons_skip includeDeleted flags m rest hp]
      refine ⟨fun h => ?_, fun h => ?_⟩
      · rw [ih1 h]; rfl
      · obtain ⟨v, hv, htrace, hcount, hbefore⟩ := ih2 h
        refine ⟨v + 1, by simp; omega, by rw [htrace]; rfl, ?_, ?_⟩
        · rw [List.take_succ_cons, passingEntries_cons_skip includeDeleted flags m _ hp]
          exact hcount
        · intro w hw
          cases w with
          | zero => rw [List.take_zero, passingEntries_nil]; exact hr
          | succ w =>
            rw [List.take_succ_cons, passingEntries_cons_skip includeDeleted flags m _ hp]
            exact hbefore w (by omega)
    · -- the entry passes the filter
      rw [passingEntries_cons_keep includeDeleted flags m rest hp]
      by_cases hc : 0 < n ∧ n ≤ (acc.length : Int) + 1
      · -- it is the last result wanted
        have hr1 : r = 1 := by omega
        have hcb := lastChannelMessagesCallback_stop n includeDeleted acc flags m hp hc
        have htr : (iterateEntriesTraced (lastChannelMessagesCallback n includeDeleted)
            ((flags, m) :: rest) acc).2 = [false] := by
          simp [iterateEntriesTraced, hcb]
        rw [htr]
        refine ⟨fun h => ?_, fun _ => ⟨0, by simp, rfl, ?_, ?_⟩⟩
        · simp only [List.length_cons] at h
          omega
        · rw [List.take_succ_cons, List.take_zero,
            passingEntries_cons_keep includeDeleted flags m [] hp, passingEntries_nil]
          simp [hr1]
        · intro w hw
          have hw0 : w = 0 := by omega
          rw [hw0, List.take_zero, passingEntries_nil]
          exact hr
      · have hcb := lastChannelMessagesCallback_go n includeDeleted acc flags m hp hc
        have htr : (iterateEntriesTraced (lastChannelMessagesCallback n includeDeleted)
            ((flags, m) :: rest) acc).2 =
            true :: (iterateEntriesTraced (lastChannelMessagesCallback n includeDeleted)
              rest (acc ++ [(⟨m, flagDeleted flags⟩ : MessageWithMeta)])).2 := by
          simp [iterateEntriesTraced, hcb]
        have hr2 : 0 < r - 1 := by omega
        obtain ⟨ih1, ih2⟩ := ih (acc ++ [(⟨m, flagDeleted flags⟩ : MessageWithMeta)]) (r - 1) hr2
          (by simp only [List.length_append, List.length_singleton]; push_cast; omega)
        rw [htr]
        simp only [List.length_cons]
        refine ⟨fun h => ?_, fun h => ?_⟩
        · rw [ih1 (by omega)]; rfl
        · obtain ⟨v, hv, htrace, hcount, hbefore⟩ := ih2 (by omega)
          refine ⟨v + 1, by omega, by rw [htrace]; rfl, ?_, ?_⟩
          · rw [List.take_succ_cons, passingEntries_cons_keep includeDeleted flags m _ hp,
              List.length_cons, hcount]
            exact Nat.sub_add_cancel hr
          · intro w hw
            cases w with
            | zero => rw [List.take_zero, passingEntries_nil]; exact hr
            | succ w =>
              rw [List.take_succ_cons, passingEntries_cons_keep includeDeleted flags m _ hp,
                List.length_cons]
              have := hbefore w (by omega)
              omega

theorem passingEntries_take (includeDeleted : Bool) (entries : List (Nat × Message))
    (k : Nat) :
    passingEntries includeDeleted (entries.take k) =
      (passingEntries includeDeleted entries).take
        (passingEntries includeDeleted (entries.take k)).length := by
  have hpre : passingEntries includeDeleted (entries.take k) <+:
      passingEntries includeDeleted entries := by
    unfold passingEntries
    exact ((List.take_prefix k entries).filter _).map _
  exact List.prefix_iff_eq_take.1 hpre

/-! ### MemberPermissions: order of the overwrites -/

theorem lor_right_comm (a b c : Int) : Int.lor (Int.lor a b) c = Int.lor (Int.lor a c) b :=
  int_eq_of_testBit_eq (fun i => by
    simp only [Int.testBit_lor]
    cases a.testBit i <;> cases b.testBit i <;> cases c.testBit i <;> rfl)

theorem foldl_lor_perm (l1 l2 : List Int) (h : l1.Perm l2) (init : Int) :
    l1.foldl Int.lor init = l2.foldl Int.lor init := by
  haveI : RightCommutative Int.lor := ⟨lor_right_comm⟩
  exact h.foldl_eq init

theorem find?_perm {α : Type} (p : α → Bool) (l1 l2 : List α) (h : l1.Perm l2)
    (huniq : ∀ a ∈ l2, ∀ b ∈ l2, p a = true → p b = true → a = b) :
    l1.find? p = l2.find? p := by
  cases h1 : l1.find? p with
  | none =>
    cases h2 : l2.find? p with
    | none => rfl
    | some b =>
      have hb := List.mem_of_find?_eq_some h2
      exact absurd (List.find?_some h2) (List.find?_eq_none.1 h1 b (h.mem_iff.2 hb))
  | some a =>
    have ha := h.mem_iff.1 (List.mem_of_find?_eq_some h1)
    have hpa := List.find?_some h1
    cases h2 : l2.find? p with
    | none => exact absurd hpa (List.find?_eq_none.1 h2 a ha)
    | some b =>
      rw [huniq a ha b (List.mem_of_find?_eq_some h2) hpa (List.find?_some h2)]

theorem roleOverwritesLoop_perm (memberRoles : List String)
    (l1 l2 : List PermissionOverwrite) (h : l1.Perm l2) :
    roleOverwritesLoop memberRoles l1 (0, 0) = roleOverwritesLoop memberRoles l2 (0, 0) := by
  rw [roleOverwritesLoop_eq, roleOverwritesLoop_eq]
  rw [foldl_lor_perm _ _ ((h.filter _).map (fun o => o.Deny)) 0,
    foldl_lor_perm _ _ ((h.filter _).map (fun o => o.Allow)) 0]

theorem overwriteResult_perm (g : Guild) (channel : Channel) (member : Member)
    (memberID : String) (ows : List PermissionOverwrite)
    (h : ows.Perm channel.PermissionOverwrites)
    (hnodup : (channel.PermissionOverwrites.map (fun o => o.ID)).Nodup) :
    overwriteResult g { channel with PermissionOverwrites := ows } member memberID =
      overwriteResult g channel member memberID := by
  have hinj := List.inj_on_of_nodup_map hnodup
  have h1 : everyoneOverwrite g { channel with PermissionOverwrites := ows } =
      everyoneOverwrite g channel := by
    unfold everyoneOverwrite
    rw [find?_perm _ ows channel.PermissionOverwrites h (fun a ha b hb hpa hpb => by
      simp only [decide_eq_true_eq] at hpa hpb
      exact hinj ha hb (hpa.trans hpb.symm))]
  have h2 : memberOverwrite { channel with PermissionOverwrites := ows } memberID =
      memberOverwrite channel memberID := by
    unfold memberOverwrite
    rw [find?_perm _ ows channel.PermissionOverwrites h (fun a ha b hb hpa hpb => by
      simp only [decide_eq_true_eq] at hpa hpb
      exact hinj ha hb (hpa.2.trans hpb.2.symm))]
  have h3 : roleDenies member { channel with PermissionOverwrites := ows } =
      roleDenies member channel := by
    unfold roleDenies memberRoleOverwrites
    exact foldl_lor_perm _ _ ((h.filter _).map _) 0
  have h4 : roleAllows member { channel with PermissionOverwrites := ows } =
      roleAllows member channel := by
    unfold roleAllows memberRoleOverwrites
    exact foldl_lor_perm _ _ ((h.filter _).map _) 0
  unfold overwriteResult
  rw [h1, h2, h3, h4]

theorem resolveGuildChannel_withOverwrites_error (f : Channel → List PermissionOverwrite)
    (s : State) (g : Option Guild) (channelID : String) (err : Error)
    (hres : resolveGuildChannel s g channelID = .error err) :
    resolveGuildChannel (s.withOverwrites f) (g.map (Guild.withOverwrites f)) channelID =
      .error err := by
  cases g with
  | none =>
    simp only [resolveGuildChannel] at hres
    cases hc : s.Channel channelID with
    | error e =>
      simp only [hc, Except.error.injEq] at hres
      simp [resolveGuildChannel, State.withOverwrites, hc, hres]
    | ok c =>
      cases hg : s.Guild c.GuildID with
      | error e =>
        simp only [hc, hg, Except.error.injEq] at hres
        have hg2 : s.Guild (Channel.withOverwrites f c).GuildID = .error e := hg
        simp [resolveGuildChannel, State.withOverwrites, hc, hg2, hres]
      | ok g1 => simp [hc, hg] at hres
  | some g0 =>
    simp only [resolveGuildChannel] at hres
    cases hf : findChannel channelID g0.Channels none with
    | none =>
      simp only [hf, Except.error.injEq] at hres
      have := findChannel_withOverwrites f channelID g0.Channels none
      simp only [Option.map_none', hf] at this
      simp [resolveGuildChannel, Guild.withOverwrites, this, hres]
    | some c => simp [hf] at hres

/-- C18: when the overwrites of the resolved channel have pairwise distinct ids,
`MemberPermissions` returns the same pair when the overwrite list of every
channel (in the supplied guild and in the store) is replaced by a permutation of
itself; and the role-overwrite loop gives the same denies and allows on any two
lists that are permutations of each other, distinct ids or not. -/
theorem MemberPermissions_overwrite_order (k : Permissions) (s : State) (g : Option Guild)
    (channelID memberID : String) (f : Channel → List PermissionOverwrite)
    (hperm : ∀ c, (f c).Perm c.PermissionOverwrites)
    (hnodup : ∀ gg channel, resolveGuildChannel s g channelID = .ok (gg, channel) →
      (channel.PermissionOverwrites.map (fun o => o.ID)).Nodup) :
    MemberPermissions k (s.withOverwrites f) (g.map (Guild.withOverwrites f))
        channelID memberID =
      MemberPermissions k s g channelID memberID ∧
    ∀ (memberRoles : List String) (l1 l2 : List PermissionOverwrite), l1.Perm l2 →
      roleOverwritesLoop memberRoles l1 (0, 0) = roleOverwritesLoop memberRoles l2 (0, 0) := by
  refine ⟨?_, roleOverwritesLoop_perm⟩
  cases hres : resolveGuildChannel s g channelID with
  | error err =>
    have hres2 := resolveGuildChannel_withOverwrites_error f s g channelID err hres
    simp only [MemberPermissions, hres, hres2]
  | ok p =>
    obtain ⟨gg, channel⟩ := p
    have hres2 := resolveGuildChannel_withOverwrites f s g channelID gg channel hres
    by_cases hown : memberID = gg.OwnerID
    · have hown2 : memberID = (gg.withOverwrites f).OwnerID := hown
      have hL : MemberPermissions k (s.withOverwrites f) (g.map (Guild.withOverwrites f))
          channelID memberID = (k.PermissionAll, none) := by
        unfold MemberPermissions
        simp only [hres2]
        exact if_pos hown2
      have hR : MemberPermissions k s g channelID memberID = (k.PermissionAll, none) := by
        unfold MemberPermissions
        simp only [hres]
        exact if_pos hown
      rw [hL, hR]
    · cases hmem : s.GuildMember gg.ID memberID with
      | error err =>
        have hmem2 : (s.withOverwrites f).GuildMember (gg.withOverwrites f).ID memberID =
            .error err := hmem
        have hown2 : ¬ memberID = (gg.withOverwrites f).OwnerID := hown
        have hL : MemberPermissions k (s.withOverwrites f) (g.map (Guild.withOverwrites f))
            channelID memberID = (0, some err) := by
          unfold MemberPermissions
          simp only [hres2]
          rw [if_neg hown2, hmem2]
        have hR : MemberPermissions k s g channelID memberID = (0, some err) := by
          unfold MemberPermissions
          simp only [hres]
          rw [if_neg hown, hmem]
        rw [hL, hR]
      | ok member =>
        have hmem2 : (s.withOverwrites f).GuildMember (gg.withOverwrites f).ID memberID =
            .ok member := hmem
        have hown2 : memberID ≠ (gg.withOverwrites f).OwnerID := hown
        rw [MemberPermissions_resolved k _ _ channelID memberID _ _ member hres2 hown2 hmem2,
          MemberPermissions_resolved k s g channelID memberID gg channel member hres hown hmem,
          computePermissions_eq, computePermissions_eq]
        have hbase : basePermissions (gg.withOverwrites f) member = basePermissions gg member :=
          rfl
        have hR : overwriteResult (gg.withOverwrites f) (channel.withOverwrites f) member
            memberID = overwriteResult gg channel member memberID :=
          overwriteResult_perm gg channel member memberID (f channel) (hperm channel)
            (hnodup gg channel hres)
        rw [hbase, hR]

/-- C18, witness: member "7" in channel "5" of guild "1", whose two overwrites have
the distinct ids "20" and "7", with every overwrite list reversed. -/
theorem MemberPermissions_overwrite_order_witness :
    MemberPermissions discordgo (storeOne.withOverwrites (fun c => c.PermissionOverwrites.reverse))
        ((some guildOne).map (Guild.withOverwrites (fun c => c.PermissionOverwrites.reverse)))
        "5" "7" =
      MemberPermissions discordgo storeOne (some guildOne) "5" "7" :=
  (MemberPermissions_overwrite_order discordgo storeOne (some guildOne) "5" "7"
    (fun c => c.PermissionOverwrites.reverse) (fun c => List.reverse_perm _)
    (fun gg channel h => by
      have h2 : resolveGuildChannel storeOne (some guildOne) "5" =
          .ok (guildOne, channelFive) := rfl
      rw [h2] at h
      simp only [Except.ok.injEq, Prod.mk.injEq] at h
      rw [← h.2]
      decide)).1

/-! ### Presence filter: invariant -/

theorem recorded_iff_mem_flatten (f : presenceUpdateFilter) (userID : String) :
    recorded f userID ↔ userID ∈ f.recentlyProcessedPresenceUpdates.flatten := by
  unfold recorded
  rw [List.mem_flatten]

theorem nodup_flatten_set_append (lists : List (List String)) (userID : String) :
    ∀ (i : Nat) (shardList : List String), lists.get? i = some shardList →
      lists.flatten.Nodup → userID ∉ lists.flatten →
      (lists.set i (shardList ++ [userID])).flatten.Nodup := by
  induction lists with
  | nil => intro i shardList hget; simp at hget
  | cons hd tl ih =>
    intro i shardList hget hnd hnot
    rw [List.flatten_cons] at hnd hnot
    rw [List.nodup_append] at hnd
    obtain ⟨hhd, htl, hdisj⟩ := hnd
    rw [List.mem_append, not_or] at hnot
    cases i with
    | zero =>
      simp only [List.get?_cons_zero, Option.some.injEq] at hget
      subst hget
      rw [List.set_cons_zero, List.flatten_cons, List.nodup_append]
      refine ⟨?_, htl, ?_⟩
      · rw [List.nodup_append]
        refine ⟨hhd, List.nodup_singleton _, ?_⟩
        intro x hx hx2
        rw [List.mem_singleton] at hx2
        exact hnot.1 (hx2 ▸ hx)
      · intro x hx hx2
        rcases List.mem_append.1 hx with h | h
        · exact hdisj h hx2
        · rw [List.mem_singleton] at h
          exact hnot.2 (h ▸ hx2)
    | succ i =>
      simp only [List.get?_cons_succ] at hget
      rw [List.set_cons_succ, List.flatten_cons, List.nodup_append]
      refine ⟨hhd, ih i shardList hget htl hnot.2, ?_⟩
      intro x hx hx2
      rw [List.mem_flatten] at hx2
      rcases (mem_set_append tl i shardList userID x hget).1 hx2 with h | h
      · exact hdisj hx (List.mem_flatten.2 h)
      · exact hnot.1 (h ▸ hx)

theorem checkUserID_new_eq (f : presenceUpdateFilter) (shardID : Nat) (userID : String)
    (shardList : List String) (h : ¬ recorded f userID)
    (hget : f.recentlyProcessedPresenceUpdates.get? shardID = some shardList) :
    f.checkUserID shardID userID =
      some (false, { f with recentlyProcessedPresenceUpdates :=
        f.recentlyProcessedPresenceUpdates.set shardID (shardList ++ [userID]) }) := by
  unfold presenceUpdateFilter.checkUserID
  rw [if_neg (fun hh => h ((scan_eq_true_iff f userID).1 hh)), hget]

theorem checkUserID_step (f : presenceUpdateFilter) (shardID : Nat) (userID : String)
    (hinv : filterInvariant f) (hs : shardID < f.numShards) :
    ∃ b f1, f.checkUserID shardID userID = some (b, f1) ∧ filterInvariant f1 ∧
      f1.numShards = f.numShards ∧
      (b = true → f1 = f) ∧
      (b = false → ∃ shardList,
        f.recentlyProcessedPresenceUpdates.get? shardID = some shardList ∧
        f1.recentlyProcessedPresenceUpdates =
          f.recentlyProcessedPresenceUpdates.set shardID (shardList ++ [userID])) := by
  by_cases hrec : recorded f userID
  · exact ⟨true, f, checkUserID_seen f shardID userID hrec, hinv, rfl, fun _ => rfl,
      fun h => Bool.noConfusion h⟩
  · have hlt : shardID < f.recentlyProcessedPresenceUpdates.length := by rw [hinv.1]; exact hs
    have hget : f.recentlyProcessedPresenceUpdates.get? shardID =
        some (f.recentlyProcessedPresenceUpdates.get ⟨shardID, hlt⟩) := List.get?_eq_get hlt
    refine ⟨false, _, checkUserID_new_eq f shardID userID _ hrec hget, ⟨?_, ?_⟩, rfl,
      fun h => Bool.noConfusion h, fun _ => ⟨_, hget, rfl⟩⟩
    · simp only [List.length_set]
      exact hinv.1
    · exact nodup_flatten_set_append _ userID shardID _ hget hinv.2
        (fun hmem => hrec ((recorded_iff_mem_flatten f userID).2 hmem))

theorem filterInvariant_clear (f : presenceUpdateFilter) : filterInvariant f.clear := by
  refine ⟨by simp [presenceUpdateFilter.clear], ?_⟩
  have : (List.replicate f.numShards ([] : List String)).flatten = [] := by
    induction f.numShards with
    | zero => rfl
    | succ n ih => rw [List.replicate_succ, List.flatten_cons, ih]; rfl
  show (List.replicate f.numShards ([] : List String)).flatten.Nodup
  rw [this]
  exact List.nodup_nil

theorem runCalls_invariant (numShards : Nat) (calls : List FilterCall) :
    ∀ f : presenceUpdateFilter, filterInvariant f → f.numShards = numShards →
      (∀ shardID userID, FilterCall.check shardID userID ∈ calls → shardID < numShards) →
      ∃ f1, runCalls f calls = some f1 ∧ filterInvariant f1 ∧ f1.numShards = numShards := by
  induction calls with
  | nil => intro f hinv hn _; exact ⟨f, rfl, hinv, hn⟩
  | cons c rest ih =>
    intro f hinv hn hs
    have hrest : ∀ shardID userID, FilterCall.check shardID userID ∈ rest →
        shardID < numShards := fun a b hm => hs a b (List.mem_cons_of_mem _ hm)
    cases c with
    | clear =>
      simp only [runCalls]
      exact ih f.clear (filterInvariant_clear f) hn hrest
    | check shardID userID =>
      have hlt : shardID < f.numShards := by
        rw [hn]; exact hs shardID userID (List.mem_cons_self _ _)
      obtain ⟨b, f1, hcheck, hinv1, hn1, _, _⟩ := checkUserID_step f shardID userID hinv hlt
      simp only [runCalls, hcheck]
      exact ih f1 hinv1 (hn1.trans hn) hrest

/-- C19: starting from the filter `clear` produces, after every finite sequence of
`clear` calls and `checkUserID` calls with shard ids below `numShards`, no call has
panicked, the outer list has exactly `numShards` entries and no user id occurs
twice across the shard lists. On any filter with that invariant a `checkUserID`
call with a shard id below `numShards` does not panic and keeps the invariant; if
it returns true the filter is unchanged; if it returns false the lists change
only at the caller's index, where the user id is appended at the end. -/
theorem presence_filter_invariant (f0 : presenceUpdateFilter) (calls : List FilterCall)
    (hs : ∀ shardID userID, FilterCall.check shardID userID ∈ calls →
      shardID < f0.numShards) :
    (∃ f, runCalls f0.clear calls = some f ∧
      f.recentlyProcessedPresenceUpdates.length = f0.numShards ∧
      f.numShards = f0.numShards ∧
      f.recentlyProcessedPresenceUpdates.flatten.Nodup) ∧
    (∀ (f : presenceUpdateFilter) (shardID : Nat) (userID : String),
      filterInvariant f → shardID < f.numShards →
      ∃ b f1, f.checkUserID shardID userID = some (b, f1) ∧ filterInvariant f1 ∧
        f1.numShards = f.numShards ∧
        (b = true → f1 = f) ∧
        (b = false → ∃ shardList,
          f.recentlyProcessedPresenceUpdates.get? shardID = some shardList ∧
          f1.recentlyProcessedPresenceUpdates =
            f.recentlyProcessedPresenceUpdates.set shardID (shardList ++ [userID]))) := by
  refine ⟨?_, fun f shardID userID hinv hlt => checkUserID_step f shardID userID hinv hlt⟩
  obtain ⟨f, hrun, hinv, hn⟩ :=
    runCalls_invariant f0.numShards calls f0.clear (filterInvariant_clear f0) rfl hs
  exact ⟨f, hrun, hinv.1.trans hn, hn, hinv.2⟩

/-- C19, witness: two shards; "u1" checked from shard 0 and again from shard 1, a
`clear`, then "u1" from shard 1. -/
theorem presence_filter_invariant_witness :
    ∃ f, runCalls (presenceUpdateFilter.clear { recentlyProcessedPresenceUpdates := [["x"]],
                                                numShards := 2 })
        [FilterCall.check 0 "u1", FilterCall.check 1 "u1", FilterCall.clear,
         FilterCall.check 1 "u1"] = some f ∧
      f.recentlyProcessedPresenceUpdates.length = 2 ∧
      f.numShards = 2 ∧
      f.recentlyProcessedPresenceUpdates.flatten.Nodup :=
  (presence_filter_invariant { recentlyProcessedPresenceUpdates := [["x"]], numShards := 2 }
    [FilterCall.check 0 "u1", FilterCall.check 1 "u1", FilterCall.clear,
     FilterCall.check 1 "u1"]
    (by
      intro shardID userID h
      simp at h
      show shardID < 2
      omega)).1

/-! ### LastChannelMessages: the result -/

/-- C6 (as stated, fails on the code): for `n = 2 ^ 61` the capacity asked of
`make` takes `2 ^ 64` bytes, which no `uintptr` holds, so `make` panics before the
iterator is called, whatever the runtime's `maxAlloc` below `2 ^ 64`; the call
returns nothing, not the passing entries 5, 3, 2, 1. -/
theorem LastChannelMessagesWithTxn_panics_on_huge_n :
    (0 : Int) < 2305843009213693952 ∧
    LastChannelMessagesWithTxn maxAlloc64 fiveMessages 2305843009213693952 false = none ∧
    LastChannelMessagesWithTxn 18446744073709551615 fiveMessages 2305843009213693952 false =
      none ∧
    (passingEntries false fiveMessages).map (fun x => x.Message.ID) = ["5", "3", "2", "1"] := by
  decide

/-- C6 (amended): when `make` can allocate the capacity asked for (`n` pointers
for `n >= 0`, 100 pointers for `n < 0`), the messages `LastChannelMessagesWithTxn`
returns are the entries of the delivered range that pass the filter (all of them
when `includeDeleted`, otherwise those whose deleted bit is clear), in delivery
order and each with `Deleted` equal to its deleted bit, cut to the first `n` when
`n > 0` and not cut when `n <= 0`; when `make` cannot, the call panics. An entry
flagged only `MessageFlagOld` passes; ids 5,4,3,2,1 with 4 deleted give 5,3,2 for
`n = 3` and 5,3,2,1 for `n = 0` and `n = -1`. -/
theorem LastChannelMessagesWithTxn_eq (maxAlloc : Nat) (entries : List (Nat × Message))
    (n : Int) (includeDeleted : Bool) :
    (makeSucceeds maxAlloc (resultCapacity n) →
      LastChannelMessagesWithTxn maxAlloc entries n includeDeleted =
        some (if n > 0 then (passingEntries includeDeleted entries).take n.toNat
          else passingEntries includeDeleted entries)) ∧
    (¬ makeSucceeds maxAlloc (resultCapacity n) →
      LastChannelMessagesWithTxn maxAlloc entries n includeDeleted = none) ∧
    (∀ m : Message, passingEntries includeDeleted [(MessageFlagOld, m)] =
      [{ Message := m, Deleted := false }]) ∧
    (LastChannelMessagesWithTxn maxAlloc64 fiveMessages 3 false).map
      (List.map (fun x => x.Message.ID)) = some ["5", "3", "2"] ∧
    (LastChannelMessagesWithTxn maxAlloc64 fiveMessages 0 false).map
      (List.map (fun x => x.Message.ID)) = some ["5", "3", "2", "1"] ∧
    (LastChannelMessagesWithTxn maxAlloc64 fiveMessages (-1) false).map
      (List.map (fun x => x.Message.ID)) = some ["5", "3", "2", "1"] := by
  refine ⟨fun hcap => ?_, fun hcap => ?_, ?_, by decide, by decide, by decide⟩
  · unfold LastChannelMessagesWithTxn
    rw [if_pos hcap]
    by_cases hn : n > 0
    · rw [iterateEntries_bounded n includeDeleted entries [] (by simpa using hn)]
      simp [hn]
    · rw [iterateEntries_unbounded n (by omega) includeDeleted entries []]
      simp [hn]
  · unfold LastChannelMessagesWithTxn
    rw [if_neg hcap]
  · intro m
    cases includeDeleted <;> simp [passingEntries, flagDeleted, MessageFlagOld, MessageFlagDeleted]

/-- C6 (amended), witness: ids 5,4,3,2,1 with 4 deleted, `n = 3`, on a runtime with
the `maxAlloc` of 64-bit Linux. -/
theorem LastChannelMessagesWithTxn_eq_witness :
    LastChannelMessagesWithTxn maxAlloc64 fiveMessages 3 false =
      some (if (3 : Int) > 0 then (passingEntries false fiveMessages).take (3 : Int).toNat
        else passingEntries false fiveMessages) :=
  (LastChannelMessagesWithTxn_eq maxAlloc64 fiveMessages 3 false).1 (by decide)

/-- C7 (fails on the code): with the iterator a descending byte-lexicographic scan
of the keys under the channel's prefix, a channel holding the messages 1 and 256
gives `LastChannelMessages` the ids in the order 1, 256 (the little-endian key of
256 sorts below the key of 1), which is not decreasing id order; this for every
`maxAlloc`, the capacity asked of `make` being 0. -/
theorem LastChannelMessages_not_newest_first :
    (∀ maxAlloc : Nat, (LastChannelMessages maxAlloc
      (storeMessages "7" [(0, messageWithID "1"), (0, messageWithID "256")]) "7" 0 false).map
        (List.map (fun x => parseID x.Message.ID)) = some [1, 256]) ∧
    (∀ maxAlloc : Nat, (LastChannelMessages maxAlloc
      (storeMessages "7" [(0, messageWithID "256"), (0, messageWithID "1")]) "7" 0 false).map
        (List.map (fun x => parseID x.Message.ID)) = some [1, 256]) := by
  have hcap : ∀ maxAlloc : Nat, makeSucceeds maxAlloc (resultCapacity 0) := by
    intro maxAlloc
    refine ⟨by decide, by decide, ?_⟩
    show (8 : Int) * 0 ≤ (maxAlloc : Int)
    omega
  constructor
  · intro maxAlloc
    unfold LastChannelMessages LastChannelMessagesWithTxn
    rw [if_pos (hcap maxAlloc)]
    decide
  · intro maxAlloc
    unfold LastChannelMessages LastChannelMessagesWithTxn
    rw [if_pos (hcap maxAlloc)]
    decide

/-! ### LastChannelMessages: the entries visited -/

/-- C17 (as stated, fails on the code): for `n = 2 ^ 61` fewer than `n` of the five
entries pass the filter, so the claim has all five entries visited; but `make`
panics before the iterator is called, no callback is passed and no entry is
visited. -/
theorem LastChannelMessages_visits_nothing_on_huge_n :
    (0 : Int) < 2305843009213693952 ∧
    (passingEntries false fiveMessages).length < 2305843009213693952 ∧
    fiveMessages.length = 5 ∧
    LastChannelMessagesTraced maxAlloc64 fiveMessages 2305843009213693952 false = none ∧
    LastChannelMessagesTraced 18446744073709551615 fiveMessages 2305843009213693952 false =
      none := by
  decide

/-- C17 (amended): for `n > 0` that `make` can allocate as capacity, the callback
returns true at every invocation but the one that appends the `n`-th result,
where it returns false and the iteration ends. If fewer than `n` entries pass the
filter, every entry of the range is visited; otherwise the number of entries
visited is the position of the `n`-th passing entry (the first `v + 1` entries
hold exactly `n` passing ones, no shorter prefix does). The result holds the
passing entries among the visited ones only. -/
theorem LastChannelMessages_stops_at_nth (maxAlloc : Nat) (entries : List (Nat × Message))
    (n : Int) (includeDeleted : Bool) (hn : 0 < n)
    (hcap : makeSucceeds maxAlloc (resultCapacity n)) :
    LastChannelMessagesTraced maxAlloc entries n includeDeleted =
      some (passingEntries includeDeleted
          (entries.take (callbackResults entries n includeDeleted).length),
        callbackResults entries n includeDeleted) ∧
    ((passingEntries includeDeleted entries).length < n.toNat →
      callbackResults entries n includeDeleted = List.replicate entries.length true) ∧
    (n.toNat ≤ (passingEntries includeDeleted entries).length →
      ∃ v, v < entries.length ∧
        callbackResults entries n includeDeleted = List.replicate v true ++ [false] ∧
        (passingEntries includeDeleted (entries.take (v + 1))).length = n.toNat ∧
        ∀ w, w ≤ v → (passingEntries includeDeleted (entries.take w)).length < n.toNat) ∧
    LastChannelMessagesWithTxn maxAlloc entries n includeDeleted =
      some (passingEntries includeDeleted
        (entries.take (callbackResults entries n includeDeleted).length)) := by
  have hr : 0 < n.toNat := by omega
  have hsum : (([] : List MessageWithMeta).length : Int) + n.toNat = n := by
    simp only [List.length_nil]; omega
  obtain ⟨h1, h2⟩ := traced_results n includeDeleted entries [] n.toNat hr hsum
  have hres : iterateEntries (lastChannelMessagesCallback n includeDeleted) entries [] =
      (passingEntries includeDeleted entries).take n.toNat := by
    rw [iterateEntries_bounded n includeDeleted entries [] (by simpa using hn)]
    simp
  have hvisited : iterateEntries (lastChannelMessagesCallback n includeDeleted) entries [] =
      passingEntries includeDeleted
        (entries.take (callbackResults entries n includeDeleted).length) := by
    rw [hres]
    unfold callbackResults
    by_cases hlt : (passingEntries includeDeleted entries).length < n.toNat
    · rw [h1 hlt, List.length_replicate, List.take_length]
      exact List.take_of_length_le (by omega)
    · obtain ⟨v, _, htrace, hcount, _⟩ := h2 (by omega)
      rw [htrace]
      simp only [List.length_append, List.length_replicate, List.length_singleton]
      rw [passingEntries_take includeDeleted entries (v + 1), hcount]
  refine ⟨?_, h1, h2, ?_⟩
  · unfold LastChannelMessagesTraced
    rw [if_pos hcap, ← hvisited,
      ← iterateEntriesTraced_fst (lastChannelMessagesCallback n includeDeleted) entries []]
    rfl
  · unfold LastChannelMessagesWithTxn
    rw [if_pos hcap, hvisited]

/-- C17 (amended), witness: ids 5, 4, 3, 2, 1 with 4 deleted and `n = 3`: the
callback returns true three times and false at the fourth entry, which ends the
scan. -/
theorem LastChannelMessages_stops_at_nth_witness :
    callbackResults fiveMessages 3 false = [true, true, true, false] ∧
    LastChannelMessagesWithTxn maxAlloc64 fiveMessages 3 false =
      some (passingEntries false
        (fiveMessages.take (callbackResults fiveMessages 3 false).length)) :=
  ⟨by decide,
    (LastChannelMessages_stops_at_nth maxAlloc64 fiveMessages 3 false (by decide)
      (by decide)).2.2.2⟩

/-! ### SetKeyWithTTL -/

theorem encodeData_clean {α : Type} (encode : α → Except Error (List Nat))
    (buffer : Option (List Nat)) (enc : Bool) (val : α) (encoded : List Nat)
    (henc : encode val = .ok encoded) (hclean : cleanBuffer buffer enc) :
    encodeData encode buffer enc val = (.ok encoded, buffer.map (fun _ => [])) ∨
    encodeData encode buffer enc val = (.ok encoded, buffer) := by
  unfold encodeData
  cases buffer with
  | none => right; simp [henc]
  | some content =>
    cases enc with
    | false => right; simp [henc]
    | true =>
      left
      have hc : content = [] := hclean content rfl rfl
      simp [henc, hc]

theorem setKeyInTxn_issues {α : Type} (encode : α → Except Error (List Nat))
    (refuses : Txn → Write → Option Error) (tx : Txn) (buffer : Option (List Nat))
    (enc : Bool) (key : List Nat) (val : α) (ttl : Int) (encoded : List Nat)
    (henc : encode val = .ok encoded) (hclean : cleanBuffer buffer enc) :
    setKeyInTxn encode refuses tx buffer enc key val ttl =
      ((tx.SetEntry refuses (writeFor key encoded ttl)).1, buffer.map (fun _ => []),
        (tx.SetEntry refuses (writeFor key encoded ttl)).2) := by
  have hcall : (if ttl > 0 then tx.SetWithTTL refuses key encoded ttl
      else tx.Set refuses key encoded) = tx.SetEntry refuses (writeFor key encoded ttl) := by
    unfold writeFor Txn.SetWithTTL Txn.Set
    by_cases h : ttl > 0
    · simp [h]
    · simp [h]
  unfold setKeyInTxn
  rcases encodeData_clean encode buffer enc val encoded henc hclean with h | h
  · rw [h]
    simp only [hcall]
    cases buffer <;> rfl
  · rw [h]
    simp only [hcall]

theorem setKeyInTxn_accepted {α : Type} (encode : α → Except Error (List Nat))
    (refuses : Txn → Write → Option Error) (tx : Txn) (buffer : Option (List Nat))
    (enc : Bool) (key : List Nat) (val : α) (ttl : Int) (encoded : List Nat)
    (henc : encode val = .ok encoded) (hclean : cleanBuffer buffer enc)
    (hacc : refuses tx (writeFor key encoded ttl) = none) :
    setKeyInTxn encode refuses tx buffer enc key val ttl =
      ({ writes := tx.writes ++ [writeFor key encoded ttl] }, buffer.map (fun _ => []),
        none) := by
  rw [setKeyInTxn_issues encode refuses tx buffer enc key val ttl encoded henc hclean]
  simp [Txn.SetEntry, hacc]

theorem setKeyInTxn_refused {α : Type} (encode : α → Except Error (List Nat))
    (refuses : Txn → Write → Option Error) (tx : Txn) (buffer : Option (List Nat))
    (enc : Bool) (key : List Nat) (val : α) (ttl : Int) (encoded : List Nat) (err : Error)
    (henc : encode val = .ok encoded) (hclean : cleanBuffer buffer enc)
    (href : refuses tx (writeFor key encoded ttl) = some err) :
    setKeyInTxn encode refuses tx buffer enc key val ttl =
      (tx, buffer.map (fun _ => []), some err) := by
  rw [setKeyInTxn_issues encode refuses tx buffer enc key val ttl encoded henc hclean]
  simp [Txn.SetEntry, href]

theorem cleanBuffer_reset (buffer : Option (List Nat)) (enc : Bool) :
    cleanBuffer (buffer.map (fun _ => [])) enc := by
  intro content h _
  cases buffer with
  | none => simp at h
  | some c => simp at h; exact h

theorem RetryUpdateOn_commits {α : Type} (encode : α → Except Error (List Nat))
    (refuses : Txn → Write → Option Error) (commit : Nat → Option Error) (db : List Write)
    (enc : Bool) (key : List Nat) (val : α) (ttl : Int) (encoded : List Nat)
    (henc : encode val = .ok encoded)
    (hacc : refuses { writes := [] } (writeFor key encoded ttl) = none) (k : Nat)
    (hk : commit k = none) (fuel : Nat) :
    ∀ (j : Nat) (buffer : Option (List Nat)), cleanBuffer buffer enc → j ≤ k → k - j < fuel →
      (∀ i, j ≤ i → i < k → commit i = some Error.ErrConflict) →
      RetryUpdateOn commit
          (fun captured txn => setKeyInTxn encode refuses txn captured enc key val ttl)
          fuel j buffer db =
        some (db ++ [writeFor key encoded ttl], buffer.map (fun _ => []), none, k + 1) := by
  induction fuel with
  | zero => intro j _ _ _ hf; omega
  | succ fuel ih =>
    intro j buffer hclean hjk hf hc
    have hfn := setKeyInTxn_accepted encode refuses { writes := [] } buffer enc key val ttl
      encoded henc hclean hacc
    rcases Nat.eq_or_lt_of_le hjk with hj | hj
    · subst hj
      simp [RetryUpdateOn, dbUpdate, hfn, hk]
    · have hu := hc j (Nat.le_refl j) hj
      simp only [RetryUpdateOn, dbUpdate, hfn, hu, if_true]
      rw [ih (j + 1) _ (cleanBuffer_reset buffer enc) hj (by omega)
        (fun i hi hik => hc i (by omega) hik)]
      cases buffer <;> rfl

theorem dbUpdate_error_keeps_store {σ : Type} (commit : Nat → Option Error) (run : Nat)
    (fn : σ → Txn → Txn × σ × Option Error) (st st1 : σ) (db db1 : List Write) (err : Error)
    (h : dbUpdate commit run fn st db = (db1, st1, some err)) : db1 = db := by
  unfold dbUpdate at h
  rcases hfn : fn st { writes := [] } with ⟨tx, st2, _ | e⟩
  · rw [hfn] at h
    cases hc : commit run with
    | none => simp [hc] at h
    | some e2 => simp [hc] at h; exact h.1.symm
  · rw [hfn] at h
    simp at h
    exact h.1.symm

theorem dbUpdate_captured {σ : Type} (commit : Nat → Option Error) (run : Nat)
    (fn : σ → Txn → Txn × σ × Option Error) (st : σ) (db : List Write) :
    (dbUpdate commit run fn st db).2.1 = (fn st { writes := [] }).2.1 := by
  unfold dbUpdate
  rcases hfn : fn st { writes := [] } with ⟨tx, st2, _ | e⟩
  · cases hc : commit run <;> simp [hc]
  · simp

theorem RetryUpdateOn_agrees {σ : Type} (commit : Nat → Option Error)
    (fn : σ → Txn → Txn × σ × Option Error) (st : σ) (db : List Write) (fuel : Nat) :
    ∀ runs, (RetryUpdateOn commit fn fuel runs (capturedBefore fn st runs) db).map
        (fun r => (r.2.2.1, r.2.2.2)) =
      RetryUpdate (fun i => (dbUpdate commit i fn (capturedBefore fn st i) db).2.2) fuel runs := by
  induction fuel with
  | zero => intro runs; rfl
  | succ fuel ih =>
    intro runs
    have hcap := dbUpdate_captured commit runs fn (capturedBefore fn st runs) db
    rcases hu : dbUpdate commit runs fn (capturedBefore fn st runs) db with ⟨db1, st1, _ | err⟩
    · simp [RetryUpdateOn, RetryUpdate, hu]
    · have hdb := dbUpdate_error_keeps_store commit runs fn _ st1 db db1 err hu
      subst hdb
      rw [hu] at hcap
      have hst : st1 = capturedBefore fn st (runs + 1) := hcap
      by_cases hc : err = Error.ErrConflict
      · simp only [RetryUpdateOn, RetryUpdate, hu, hc, if_true]
        rw [hst]
        exact ih (runs + 1)
      · simp [RetryUpdateOn, RetryUpdate, hu, hc]

/-- C15 (as stated, fails on the code): with a supplied transaction and a value
that encodes successfully, (1) a write badger refuses, here one under the empty
key, is not made: the transaction stays empty and badger's error is returned; and
(2) with a buffer that still holds the unread bytes 88, 88 the value written is
not the encoding 1, 2 but 88, 88, 1, 2. -/
theorem SetKeyWithTTL_not_always_the_encoded_write :
    plainEncode [1, 2] = .ok [1, 2] ∧
    SetKeyWithTTL plainEncode refuseEmptyKey twoConflictsThenSuccess 3 []
        (some { writes := [] }) none false [] [1, 2] 5 =
      some ([], some { writes := [] }, none, some (Error.other "Key cannot be empty")) ∧
    SetKeyWithTTL plainEncode acceptAll twoConflictsThenSuccess 3 []
        (some { writes := [] }) (some [88, 88]) true (KeyGuild "7") [1, 2] 5 =
      some ([], some { writes := [{ key := KeyGuild "7", value := [88, 88, 1, 2],
                                    ttl := some 5 }] }, some [], none) := by
  refine ⟨rfl, ?_, ?_⟩ <;> rfl

/-- C15 (amended): when the value encodes to `encoded` and the buffer holds no
unread bytes (or no buffer or encoder is passed), `SetKeyWithTTL` with a
transaction asks it for exactly one write of `encoded` under the key, with expiry
`ttl` exactly when `ttl > 0` and with no expiry when `ttl <= 0`; if the transaction
accepts the write it is added and the error is nil, if badger refuses it the
transaction is unchanged and badger's error is returned; the buffer is reset.
`SetKey` is `SetKeyWithTTL` with `ttl = -1` and asks for a write with no expiry.
Without a transaction the same write is made inside `RetryUpdate`: if a fresh
transaction accepts it, then after `k` commit conflicts and a successful commit
the store holds that one new write and the error is nil. -/
theorem SetKeyWithTTL_writes {α : Type} (encode : α → Except Error (List Nat))
    (refuses : Txn → Write → Option Error) (commit : Nat → Option Error) (fuel : Nat)
    (db : List Write) (tx : Txn) (buffer : Option (List Nat)) (enc : Bool)
    (key : List Nat) (val : α) (ttl : Int) (encoded : List Nat)
    (henc : encode val = .ok encoded) (hclean : cleanBuffer buffer enc) :
    (refuses tx (writeFor key encoded ttl) = none →
      SetKeyWithTTL encode refuses commit fuel db (some tx) buffer enc key val ttl =
        some (db, some { writes := tx.writes ++ [writeFor key encoded ttl] },
          buffer.map (fun _ => []), none)) ∧
    (∀ err, refuses tx (writeFor key encoded ttl) = some err →
      SetKeyWithTTL encode refuses commit fuel db (some tx) buffer enc key val ttl =
        some (db, some tx, buffer.map (fun _ => []), some err)) ∧
    ((writeFor key encoded ttl).ttl = some ttl ↔ ttl > 0) ∧
    ((writeFor key encoded ttl).ttl = none ↔ ttl ≤ 0) ∧
    (refuses tx { key := key, value := encoded, ttl := none } = none →
      SetKey encode refuses commit fuel db (some tx) buffer enc key val =
        some (db, some { writes := tx.writes ++ [{ key := key, value := encoded, ttl := none }] },
          buffer.map (fun _ => []), none)) ∧
    (∀ anyTx : Option Txn, SetKey encode refuses commit fuel db anyTx buffer enc key val =
      SetKeyWithTTL encode refuses commit fuel db anyTx buffer enc key val (-1)) ∧
    (refuses { writes := [] } (writeFor key encoded ttl) = none →
      ∀ k, (∀ i, i < k → commit i = some Error.ErrConflict) → commit k = none → k < fuel →
        SetKeyWithTTL encode refuses commit fuel db none buffer enc key val ttl =
          some (db ++ [writeFor key encoded ttl], none, buffer.map (fun _ => []), none)) := by
  refine ⟨?_, ?_, ?_, ?_, ?_, fun _ => rfl, ?_⟩
  · intro hacc
    simp only [SetKeyWithTTL,
      setKeyInTxn_accepted encode refuses tx buffer enc key val ttl encoded henc hclean hacc]
  · intro err href
    simp only [SetKeyWithTTL,
      setKeyInTxn_refused encode refuses tx buffer enc key val ttl encoded err henc hclean href]
  · unfold writeFor
    by_cases h : ttl > 0
    · simp [h]
    · simp [h]
  · unfold writeFor
    by_cases h : ttl > 0
    · simp [h]
    · simp [h]; omega
  · intro hacc
    have hw : writeFor key encoded (-1) = { key := key, value := encoded, ttl := none } := by
      simp [writeFor]
    have := setKeyInTxn_accepted encode refuses tx buffer enc key val (-1) encoded henc hclean
      (by rw [hw]; exact hacc)
    simp only [SetKey, SetKeyWithTTL, this, hw]
  · intro hacc k hc hk hf
    have := RetryUpdateOn_commits encode refuses commit db enc key val ttl encoded henc hacc k
      hk fuel 0 buffer hclean (Nat.zero_le k) (by omega) (fun i _ hik => hc i hik)
    simp only [SetKeyWithTTL, this]

/-- C15 (amended), witness: with a transaction, an empty buffer and `ttl = 5` the
write carries expiry 5; without a transaction, after two commit conflicts the
third run commits the write, here with `ttl = 0` and so without expiry. -/
theorem SetKeyWithTTL_writes_witness :
    SetKeyWithTTL plainEncode acceptAll twoConflictsThenSuccess 3 [] (some { writes := [] })
        (some []) true (KeyGuild "7") [1, 2] 5 =
      some ([], some { writes := [] ++ [writeFor (KeyGuild "7") [1, 2] 5] }, some [], none) ∧
    SetKeyWithTTL plainEncode acceptAll twoConflictsThenSuccess 3 [] none (some []) true
        (KeyGuild "7") [1, 2] 0 =
      some ([] ++ [writeFor (KeyGuild "7") [1, 2] 0], none, some [], none) :=
  ⟨(SetKeyWithTTL_writes plainEncode acceptAll twoConflictsThenSuccess 3 [] { writes := [] }
      (some []) true (KeyGuild "7") [1, 2] 5 [1, 2] rfl
      (by intro content h _; exact (Option.some.inj h).symm)).1 rfl,
    (SetKeyWithTTL_writes plainEncode acceptAll twoConflictsThenSuccess 3 [] { writes := [] }
      (some []) true (KeyGuild "7") [1, 2] 0 [1, 2] rfl
      (by intro content h _; exact (Option.some.inj h).symm)).2.2.2.2.2.2 rfl 2 (by decide)
      (by decide) (by decide)⟩

end Dbstate
